import Mathlib

/-!
# A shallow embedding of the `pycircuit.circuit` core

The repository ships the test-suite `pycircuit/circuit/tests/test_circuit.py`;
the module under test (`pycircuit/circuit/circuit.py` together with
`pycircuit/circuit/symbolicanalysis.py`) is not part of the sources, so the
data model and the operations below are modelled from the specification and
checked against the behaviour the test-suite pins down.

The embedding covers: `Node`/`Branch` value identity, the element variants
`R`, `C`, `VS`, `IS` and nested `SubCircuit`s, hierarchical flattening with
dotted renaming and terminal aliasing (`nodes`, `branches`, `nodenames`),
element deletion, current probing (`save_current`, `get_terminal_branch`),
the symbolic MNA system assembly, and the `AnalysisResult` current lookup.
-/

/-- Modelled from the spec: a `Node` is a value-identity type wrapping a
name; two nodes are equal iff their names are equal. -/
structure Node where
  name : String
deriving DecidableEq, Repr

/-- Modelled from the spec: the process-wide ground singleton; it is a plain
`Node` whose canonical name is `"gnd"` (the test-suite exposes it under the
`nodenames` key `'gnd'`). -/
def gnd : Node := ⟨"gnd"⟩

/-- Modelled from the spec: a `Branch` wraps an ordered pair of nodes; the
current along it is defined positive from `plus` to `minus`; equality is
structural on the pair. -/
structure Branch where
  plus : Node
  minus : Node
deriving DecidableEq, Repr

/-- Element parameter values are opaque symbolic quantities: either a rational
constant or a named symbol, evaluated later in a field. -/
inductive SymExpr where
  | const (q : ℚ) : SymExpr
  | sym (name : String) : SymExpr
deriving DecidableEq, Repr

/-- Evaluate a parameter in a field, reading symbols from an environment. -/
def SymExpr.eval {K : Type} [Field K] (env : String → K) : SymExpr → K
  | .const q => (q : K)
  | .sym n => env n

mutual
/-- Modelled from the spec: the element variants used by the test-suite.
`R p m r` is a resistor (admittance `1/r`), `C p m c` a capacitor
(admittance `s*c`), `VS p m v` an independent voltage source (introduces one
branch `Branch p m`), `IS p m iac` an independent current source (current
`iac` flows internally from `p` to `m`, i.e. it is drawn from node `p` and
delivered into node `m`), and `Sub s` a nested sub-circuit instance. -/
inductive Element where
  | R (plus minus : Node) (r : SymExpr) : Element
  | C (plus minus : Node) (c : SymExpr) : Element
  | VS (plus minus : Node) (v : SymExpr) : Element
  | IS (plus minus : Node) (iac : SymExpr) : Element
  | Sub (sub : SubCircuit) : Element

/-- Modelled from the spec: a `SubCircuit` declares an ordered list of
terminal names, carries the nodes the parent bound to those terminals at
instantiation (terminal aliasing: these are the parent's own `Node` values),
and an insertion-ordered mapping from instance name to contained element. -/
inductive SubCircuit where
  | mk (terminals : List String) (termNodes : List Node)
       (elements : List (String × Element)) : SubCircuit
end

def SubCircuit.terminals : SubCircuit → List String
  | .mk t _ _ => t

def SubCircuit.termNodes : SubCircuit → List Node
  | .mk _ tn _ => tn

def SubCircuit.elements : SubCircuit → List (String × Element)
  | .mk _ _ els => els

/-- First-seen deduplication, with an accumulator of already-seen values. -/
def dedupKFAux {α : Type} [DecidableEq α] (seen : List α) : List α → List α
  | [] => []
  | a :: rest =>
      if a ∈ seen then dedupKFAux seen rest
      else a :: dedupKFAux (a :: seen) rest

/-- First-seen deduplication (set semantics with first-seen ordering). -/
def dedupKF {α : Type} [DecidableEq α] (l : List α) : List α :=
  dedupKFAux [] l

/-- Modelled from the spec: the dotted rename applied, from the parent's
perspective, to a node of a nested instance: terminal nodes (supplied by the
parent) and the ground singleton keep their identity, every other node is
prefixed with `"<instance name>."`. -/
def translateNode (iname : String) (terms : List Node) (n : Node) : Node :=
  if n ∈ terms ∨ n = gnd then n else ⟨iname ++ "." ++ n.name⟩

def translateBranch (iname : String) (terms : List Node) (b : Branch) : Branch :=
  ⟨translateNode iname terms b.plus, translateNode iname terms b.minus⟩

/-- Terminal nodes of a primitive element, in declared order (possibly with
repetitions). -/
def elemRawNodes : Element → List Node
  | .R p m _ => [p, m]
  | .C p m _ => [p, m]
  | .VS p m _ => [p, m]
  | .IS p m _ => [p, m]
  | .Sub _ => []

mutual
/-- Modelled from the spec: the flattened `nodes` view of a sub-circuit —
ordered, deduplicated with first-seen ordering, terminal nodes first in
declared order, computed by a depth-first walk over the contained elements. -/
def subNodeList : SubCircuit → List Node
  | .mk _ tns els => dedupKF (tns ++ walkNodes els)

/-- The depth-first node walk: a plain element contributes its terminal nodes
as given; a nested instance contributes its own flattened nodes translated by
the dotted rename. -/
def walkNodes : List (String × Element) → List Node
  | [] => []
  | (iname, .Sub s) :: rest =>
      (subNodeList s).map (translateNode iname s.termNodes) ++ walkNodes rest
  | (_, e) :: rest => elemRawNodes e ++ walkNodes rest
end

mutual
/-- Modelled from the spec: the flattened `branches` view — the ordered
sequence of branches contributed by the circuit itself and all descendants,
with descendants' branch endpoints translated by the dotted rename.  Only a
voltage source introduces a branch. -/
def subBranchList : SubCircuit → List Branch
  | .mk _ _ els => walkBranches els

def walkBranches : List (String × Element) → List Branch
  | [] => []
  | (_, .VS p m _) :: rest => Branch.mk p m :: walkBranches rest
  | (iname, .Sub s) :: rest =>
      (subBranchList s).map (translateBranch iname s.termNodes) ++ walkBranches rest
  | (_, _) :: rest => walkBranches rest
end

/-- Modelled from the spec: the element-level `nodes` view — the element's
terminal nodes, deduplicated; for a nested instance, its flattened nodes. -/
def elemNodes : Element → List Node
  | .Sub s => subNodeList s
  | .R p m _ => dedupKF [p, m]
  | .C p m _ => dedupKF [p, m]
  | .VS p m _ => dedupKF [p, m]
  | .IS p m _ => dedupKF [p, m]

/-- Modelled from the spec: `nodenames` — the mapping from every reachable
dotted name to its node: the declared terminal names map to the aliased
parent-supplied nodes, and every further flattened node is keyed by its own
(already dotted) name. -/
def nodenames (c : SubCircuit) : List (String × Node) :=
  c.terminals.zip c.termNodes
    ++ ((subNodeList c).drop c.terminals.length).map (fun n => (n.name, n))

/-- Association-list lookup (first match wins, as in an insertion-ordered
dictionary). -/
def alookup {α : Type} : List (String × α) → String → Option α
  | [], _ => none
  | (k, v) :: rest, key => if k = key then some v else alookup rest key

/-- Look up a contained element by instance name. -/
def findElem (c : SubCircuit) (iname : String) : Option Element :=
  alookup c.elements iname

/-- Modelled from the spec: deleting an instance by name removes it from the
element mapping; the flattened views are recomputed from the remaining
contents. -/
def delElem (c : SubCircuit) (iname : String) : SubCircuit :=
  .mk c.terminals c.termNodes (c.elements.filter (fun kv => kv.1 ≠ iname))

/-- Modelled from the spec: assignment stores the element under the instance
name, replacing a previous element of that name in place. -/
def setElem (c : SubCircuit) (iname : String) (e : Element) : SubCircuit :=
  .mk c.terminals c.termNodes
    (if (c.elements.map Prod.fst).contains iname then
      c.elements.map (fun kv => if kv.1 = iname then (iname, e) else kv)
    else
      c.elements ++ [(iname, e)])

example : dedupKF [1, 2, 1, 3, 2] = [1, 2, 3] := by decide

/-! ## The hierarchical test circuit of `test_subcircuit_nodes` -/

/-- The subcircuit class `MySubC` of `generate_testcircuit`, instantiated as
`I1(plus, minus)`: terminals `p, m` aliased to the parent's `plus`/`minus`
nodes, containing `R1(p, internal)`, `R2(internal, m)`, `V1(internal, gnd)`
and `R3(internal, gnd)`. -/
def mySubCTest : SubCircuit :=
  .mk ["p", "m"] [Node.mk "plus", Node.mk "minus"]
    [("R1", .R (Node.mk "plus") (Node.mk "internal") (.sym "r")),
     ("R2", .R (Node.mk "internal") (Node.mk "minus") (.sym "r")),
     ("V1", .VS (Node.mk "internal") gnd (.const 0)),
     ("R3", .R (Node.mk "internal") gnd (.sym "r"))]

/-- The parent circuit of `generate_testcircuit`: `R1(plus, minus)`,
`R3(plus, plus)` and `I1 = MySubC(plus, minus)`. -/
def testCircuit : SubCircuit :=
  .mk [] []
    [("R1", .R (Node.mk "plus") (Node.mk "minus") (.sym "r")),
     ("R3", .R (Node.mk "plus") (Node.mk "plus") (.sym "r")),
     ("I1", .Sub mySubCTest)]

example : subNodeList testCircuit =
    [Node.mk "plus", Node.mk "minus", Node.mk "I1.internal", gnd] := by decide
example : subBranchList testCircuit = [Branch.mk (Node.mk "I1.internal") gnd] := by decide
example : nodenames testCircuit =
    [("plus", Node.mk "plus"), ("minus", Node.mk "minus"),
     ("I1.internal", Node.mk "I1.internal"), ("gnd", gnd)] := by decide
example : nodenames mySubCTest =
    [("p", Node.mk "plus"), ("m", Node.mk "minus"),
     ("internal", Node.mk "internal"), ("gnd", gnd)] := by decide
example : subBranchList mySubCTest = [Branch.mk (Node.mk "internal") gnd] := by decide
example : subNodeList mySubCTest =
    [Node.mk "plus", Node.mk "minus", Node.mk "internal", gnd] := by decide
example : subNodeList (delElem testCircuit "I1") = [Node.mk "plus", Node.mk "minus"] := by decide
example : nodenames (delElem testCircuit "I1") =
    [("plus", Node.mk "plus"), ("minus", Node.mk "minus")] := by decide
example : (findElem testCircuit "R3").map elemNodes = some [Node.mk "plus"] := by decide

/-! ## Toolkit: membership and ordering facts about the flattening -/

theorem mem_dedupKFAux {α : Type} [DecidableEq α] (x : α) :
    ∀ (l seen : List α), x ∈ dedupKFAux seen l ↔ x ∈ l ∧ x ∉ seen := by
  intro l
  induction l with
  | nil => intro seen; simp [dedupKFAux]
  | cons a rest ih =>
    intro seen
    by_cases ha : a ∈ seen
    · rw [dedupKFAux, if_pos ha, ih]
      constructor
      · rintro ⟨hx, hn⟩; exact ⟨List.mem_cons_of_mem _ hx, hn⟩
      · rintro ⟨hor, hn⟩
        rcases List.mem_cons.mp hor with h | h
        · subst h; exact absurd ha hn
        · exact ⟨h, hn⟩
    · rw [dedupKFAux, if_neg ha]
      simp only [List.mem_cons, ih]
      by_cases hxa : x = a
      · subst hxa; tauto
      · tauto

theorem mem_dedupKF {α : Type} [DecidableEq α] (x : α) (l : List α) :
    x ∈ dedupKF l ↔ x ∈ l := by
  rw [dedupKF, mem_dedupKFAux]; simp

theorem nodup_dedupKFAux {α : Type} [DecidableEq α] :
    ∀ (l seen : List α), (dedupKFAux seen l).Nodup := by
  intro l
  induction l with
  | nil => intro seen; simp [dedupKFAux]
  | cons a rest ih =>
    intro seen
    by_cases ha : a ∈ seen
    · rw [dedupKFAux, if_pos ha]; exact ih _
    · rw [dedupKFAux, if_neg ha]
      refine List.nodup_cons.mpr ⟨fun hc => ?_, ih _⟩
      exact ((mem_dedupKFAux a rest (a :: seen)).mp hc).2 (List.mem_cons_self _ _)

theorem nodup_dedupKF {α : Type} [DecidableEq α] (l : List α) :
    (dedupKF l).Nodup := nodup_dedupKFAux l []

theorem dedupKFAux_append_nodup {α : Type} [DecidableEq α] :
    ∀ (t seen w : List α), t.Nodup → (∀ x ∈ t, x ∉ seen) →
      dedupKFAux seen (t ++ w) = t ++ dedupKFAux (t.reverse ++ seen) w := by
  intro t
  induction t with
  | nil => intro seen w _ _; simp
  | cons a t' ih =>
    intro seen w hnd hdisj
    have ha : a ∉ seen := hdisj a (List.mem_cons_self _ _)
    rw [List.cons_append, dedupKFAux, if_neg ha]
    rw [ih (a :: seen) w (List.nodup_cons.mp hnd).2 ?_]
    · simp
    · intro x hx
      intro hc
      rcases List.mem_cons.mp hc with h | h
      · exact (List.nodup_cons.mp hnd).1 (h ▸ hx)
      · exact hdisj x (List.mem_cons_of_mem _ hx) h

theorem dedupKF_append_nodup {α : Type} [DecidableEq α] (t w : List α) (h : t.Nodup) :
    dedupKF (t ++ w) = t ++ dedupKFAux t.reverse w := by
  rw [dedupKF, dedupKFAux_append_nodup t [] w h (by simp)]
  simp

/-- Contribution of a single named element to the parent's node walk. -/
def entryNodes : String × Element → List Node
  | (iname, .Sub s) => (subNodeList s).map (translateNode iname s.termNodes)
  | (_, e) => elemRawNodes e

/-- Contribution of a single named element to the parent's branch walk. -/
def entryBranches : String × Element → List Branch
  | (_, .VS p m _) => [Branch.mk p m]
  | (iname, .Sub s) => (subBranchList s).map (translateBranch iname s.termNodes)
  | (_, _) => []

theorem walkNodes_eq_bind : ∀ els : List (String × Element),
    walkNodes els = els.flatMap entryNodes := by
  intro els
  induction els with
  | nil => rfl
  | cons kv rest ih =>
    obtain ⟨iname, e⟩ := kv
    cases e <;> simp [walkNodes, entryNodes, List.flatMap_cons, ih]

theorem walkBranches_eq_bind : ∀ els : List (String × Element),
    walkBranches els = els.flatMap entryBranches := by
  intro els
  induction els with
  | nil => rfl
  | cons kv rest ih =>
    obtain ⟨iname, e⟩ := kv
    cases e <;> simp [walkBranches, entryBranches, List.flatMap_cons, ih]

theorem mem_subNodeList (c : SubCircuit) (x : Node) :
    x ∈ subNodeList c ↔ x ∈ c.termNodes ∨ ∃ kv ∈ c.elements, x ∈ entryNodes kv := by
  obtain ⟨t, tns, els⟩ := c
  rw [subNodeList, mem_dedupKF, List.mem_append, walkNodes_eq_bind, List.mem_flatMap]
  rfl

theorem mem_subBranchList (c : SubCircuit) (b : Branch) :
    b ∈ subBranchList c ↔ ∃ kv ∈ c.elements, b ∈ entryBranches kv := by
  obtain ⟨t, tns, els⟩ := c
  rw [subBranchList, walkBranches_eq_bind, List.mem_flatMap]
  rfl

/-! ## Toolkit: the ground singleton under flattening -/

theorem dotted_name_ne_gnd (iname x : String) : Node.mk (iname ++ "." ++ x) ≠ gnd := by
  intro h
  have hd : (iname ++ "." ++ x).data = "gnd".data :=
    congrArg (fun n : Node => n.name.data) h
  have hmem : '.' ∈ (iname ++ "." ++ x).data := by
    rw [String.data_append, String.data_append]
    refine List.mem_append.mpr (Or.inl (List.mem_append.mpr (Or.inr ?_)))
    decide
  rw [hd] at hmem
  revert hmem
  decide

theorem translateNode_gnd (iname : String) (terms : List Node) :
    translateNode iname terms gnd = gnd := by
  rw [translateNode, if_pos (Or.inr rfl)]

theorem translateNode_eq_gnd_iff (iname : String) (terms : List Node) (n : Node) :
    translateNode iname terms n = gnd ↔ n = gnd := by
  rw [translateNode]
  by_cases h : n ∈ terms ∨ n = gnd
  · rw [if_pos h]
  · rw [if_neg h]
    constructor
    · intro hc; exact absurd hc (dotted_name_ne_gnd _ _)
    · intro hc; exact absurd (Or.inr hc) h

mutual
/-- Whether a nested instance (from its own perspective, terminal bindings
included) references the ground node anywhere in its hierarchy. -/
def subRefsGnd : SubCircuit → Bool
  | .mk _ tns els => decide (gnd ∈ tns) || walkRefsGnd els

def walkRefsGnd : List (String × Element) → Bool
  | [] => false
  | (_, .Sub s) :: rest => subRefsGnd s || walkRefsGnd rest
  | (_, e) :: rest => decide (gnd ∈ elemRawNodes e) || walkRefsGnd rest
end

mutual
theorem gnd_mem_sub_iff (s : SubCircuit) :
    gnd ∈ subNodeList s ↔ subRefsGnd s = true := by
  match s with
  | .mk t tns els =>
    rw [subNodeList, subRefsGnd, mem_dedupKF, List.mem_append]
    rw [gnd_mem_walk_iff els]
    simp

theorem gnd_mem_walk_iff (els : List (String × Element)) :
    gnd ∈ walkNodes els ↔ walkRefsGnd els = true := by
  match els with
  | [] => simp [walkNodes, walkRefsGnd]
  | (iname, .Sub s) :: rest =>
    rw [walkNodes, walkRefsGnd, List.mem_append]
    rw [gnd_mem_walk_iff rest]
    have hs : gnd ∈ (subNodeList s).map (translateNode iname s.termNodes)
        ↔ subRefsGnd s = true := by
      rw [List.mem_map]
      constructor
      · rintro ⟨n, hn, hteq⟩
        exact (gnd_mem_sub_iff s).mp
          (((translateNode_eq_gnd_iff _ _ _).mp hteq) ▸ hn)
      · intro h
        exact ⟨gnd, (gnd_mem_sub_iff s).mpr h, translateNode_gnd _ _⟩
    rw [hs]
    simp
  | (iname, .R p m pr) :: rest =>
    rw [walkNodes, walkRefsGnd, List.mem_append, gnd_mem_walk_iff rest]
    · simp
    all_goals exact fun s h => Element.noConfusion h
  | (iname, .C p m pr) :: rest =>
    rw [walkNodes, walkRefsGnd, List.mem_append, gnd_mem_walk_iff rest]
    · simp
    all_goals exact fun s h => Element.noConfusion h
  | (iname, .VS p m pr) :: rest =>
    rw [walkNodes, walkRefsGnd, List.mem_append, gnd_mem_walk_iff rest]
    · simp
    all_goals exact fun s h => Element.noConfusion h
  | (iname, .IS p m pr) :: rest =>
    rw [walkNodes, walkRefsGnd, List.mem_append, gnd_mem_walk_iff rest]
    · simp
    all_goals exact fun s h => Element.noConfusion h
end

theorem subNodeList_nodup (c : SubCircuit) : (subNodeList c).Nodup := by
  obtain ⟨t, tns, els⟩ := c
  rw [subNodeList]
  exact nodup_dedupKF _

theorem subNodeList_take_terminals (s : SubCircuit) (hnd : s.termNodes.Nodup) :
    (subNodeList s).take s.termNodes.length = s.termNodes := by
  obtain ⟨t, tns, els⟩ := s
  simp only [SubCircuit.termNodes] at *
  rw [subNodeList, dedupKF_append_nodup _ _ hnd, List.take_left]

/-! ## Claim theorems: structural invariants of the flattening -/

/-- C2: for the hierarchical test circuit of `generate_testcircuit`, the
flattened `nodes` equal the set `{plus, minus, I1.internal, gnd}` and the
`branches` equal the one-element list `[Branch(I1.internal, gnd)]`. -/
theorem testcircuit_nodes_and_branches :
    (subNodeList testCircuit).toFinset =
      {Node.mk "plus", Node.mk "minus", Node.mk "I1.internal", gnd} ∧
    subBranchList testCircuit = [Branch.mk (Node.mk "I1.internal") gnd] := by
  constructor
  · decide
  · decide

/-- C6: for a sub-circuit instance declaring `K` terminal names, the first
`K` entries of its flattened `nodes` are exactly the nodes bound to those
terminals, in declared order (stated for well-formed instances: the terminal
binding has the declared arity and binds distinct nodes). -/
theorem terminal_nodes_come_first (s : SubCircuit)
    (hnd : s.termNodes.Nodup) (hlen : s.termNodes.length = s.terminals.length) :
    (subNodeList s).take s.terminals.length = s.termNodes := by
  rw [← hlen]
  exact subNodeList_take_terminals s hnd

theorem terminal_nodes_come_first_witness :
    (mySubCTest.termNodes.Nodup ∧
      mySubCTest.termNodes.length = mySubCTest.terminals.length) ∧
    (subNodeList mySubCTest).take mySubCTest.terminals.length = mySubCTest.termNodes :=
  ⟨⟨by decide, by decide⟩, terminal_nodes_come_first mySubCTest (by decide) (by decide)⟩

/-- C7: the ground node appears in the flattened `nodes` iff the circuit
references it anywhere in its hierarchy, it appears at most once, and the
dotted rename never prefixes it (so it can never appear under a dotted name
as the image of ground). -/
theorem ground_node_invariant (c : SubCircuit) :
    (gnd ∈ subNodeList c ↔ subRefsGnd c = true) ∧
    (subNodeList c).count gnd ≤ 1 ∧
    (∀ iname terms, translateNode iname terms gnd = gnd) :=
  ⟨gnd_mem_sub_iff c,
   List.nodup_iff_count_le_one.mp (subNodeList_nodup c) gnd,
   fun iname terms => translateNode_gnd iname terms⟩

/-- C9: an element whose two terminals are bound to the same node lists that
node exactly once in its `nodes` view; in general the element-level `nodes`
view is duplicate-free. -/
theorem element_nodes_deduplicated :
    (∀ (n : Node) (p : SymExpr),
      elemNodes (Element.R n n p) = [n] ∧ elemNodes (Element.C n n p) = [n] ∧
      elemNodes (Element.VS n n p) = [n] ∧ elemNodes (Element.IS n n p) = [n]) ∧
    (∀ e : Element, (elemNodes e).Nodup) := by
  constructor
  · intro n p
    refine ⟨?_, ?_, ?_, ?_⟩ <;> simp [elemNodes, dedupKF, dedupKFAux]
  · intro e
    cases e with
    | Sub s => exact subNodeList_nodup s
    | R p m pr => exact nodup_dedupKF _
    | C p m pr => exact nodup_dedupKF _
    | VS p m pr => exact nodup_dedupKF _
    | IS p m pr => exact nodup_dedupKF _

/-! ## Deletion: exactly the uniquely-introduced nodes and branches vanish -/

/-- The nodes that the instance(s) named `ii` uniquely introduced into the
flattened view of `c`: their contribution minus the terminal bindings and the
contributions of every other element. -/
def uniqueNodesOf (c : SubCircuit) (ii : String) : Finset Node :=
  ((c.elements.filter (fun kv => kv.1 = ii)).flatMap entryNodes).toFinset \
    (c.termNodes.toFinset ∪
      ((c.elements.filter (fun kv => kv.1 ≠ ii)).flatMap entryNodes).toFinset)

/-- The branches that the instance(s) named `ii` uniquely introduced into the
flattened view of `c`. -/
def uniqueBranchesOf (c : SubCircuit) (ii : String) : Finset Branch :=
  ((c.elements.filter (fun kv => kv.1 = ii)).flatMap entryBranches).toFinset \
    ((c.elements.filter (fun kv => kv.1 ≠ ii)).flatMap entryBranches).toFinset

theorem mem_subNodeList_delElem (c : SubCircuit) (ii : String) (x : Node) :
    x ∈ subNodeList (delElem c ii) ↔
      x ∈ c.termNodes ∨ ∃ kv ∈ c.elements, kv.1 ≠ ii ∧ x ∈ entryNodes kv := by
  rw [mem_subNodeList]
  simp only [delElem, SubCircuit.termNodes, SubCircuit.elements, List.mem_filter,
    decide_eq_true_eq, ne_eq]
  constructor
  · rintro (h | ⟨kv, ⟨hmem, hne⟩, hx⟩)
    · exact Or.inl h
    · exact Or.inr ⟨kv, hmem, hne, hx⟩
  · rintro (h | ⟨kv, hmem, hne, hx⟩)
    · exact Or.inl h
    · exact Or.inr ⟨kv, ⟨hmem, hne⟩, hx⟩

theorem mem_subBranchList_delElem (c : SubCircuit) (ii : String) (b : Branch) :
    b ∈ subBranchList (delElem c ii) ↔
      ∃ kv ∈ c.elements, kv.1 ≠ ii ∧ b ∈ entryBranches kv := by
  rw [mem_subBranchList]
  simp only [delElem, SubCircuit.elements, List.mem_filter, decide_eq_true_eq, ne_eq]
  constructor
  · rintro ⟨kv, ⟨hmem, hne⟩, hx⟩
    exact ⟨kv, hmem, hne, hx⟩
  · rintro ⟨kv, hmem, hne, hx⟩
    exact ⟨kv, ⟨hmem, hne⟩, hx⟩

theorem mem_uniqueNodesOf (c : SubCircuit) (ii : String) (x : Node) :
    x ∈ uniqueNodesOf c ii ↔
      (∃ kv ∈ c.elements, kv.1 = ii ∧ x ∈ entryNodes kv) ∧
      ¬(x ∈ c.termNodes ∨ ∃ kv ∈ c.elements, kv.1 ≠ ii ∧ x ∈ entryNodes kv) := by
  simp only [uniqueNodesOf, Finset.mem_sdiff, Finset.mem_union, List.mem_toFinset,
    List.mem_flatMap, List.mem_filter, decide_eq_true_eq, ne_eq, and_assoc]

theorem mem_uniqueBranchesOf (c : SubCircuit) (ii : String) (b : Branch) :
    b ∈ uniqueBranchesOf c ii ↔
      (∃ kv ∈ c.elements, kv.1 = ii ∧ b ∈ entryBranches kv) ∧
      ¬(∃ kv ∈ c.elements, kv.1 ≠ ii ∧ b ∈ entryBranches kv) := by
  simp only [uniqueBranchesOf, Finset.mem_sdiff, List.mem_toFinset,
    List.mem_flatMap, List.mem_filter, decide_eq_true_eq, ne_eq, and_assoc]

/-- C4: deleting an instance by name removes, from the flattened node and
branch views, exactly what that instance uniquely introduced; the nodes it
shared (the parent's terminal bindings, or anything another element also
contributes) remain. -/
theorem delete_removes_exactly_unique (c : SubCircuit) (ii : String) :
    (subNodeList (delElem c ii)).toFinset
        = (subNodeList c).toFinset \ uniqueNodesOf c ii ∧
    (subBranchList (delElem c ii)).toFinset
        = (subBranchList c).toFinset \ uniqueBranchesOf c ii ∧
    (∀ n ∈ c.termNodes, n ∈ subNodeList (delElem c ii)) := by
  refine ⟨?_, ?_, fun n hn => (mem_subNodeList_delElem c ii n).mpr (Or.inl hn)⟩
  · ext x
    have hsplitN : (∃ kv ∈ c.elements, x ∈ entryNodes kv) ↔
        ((∃ kv ∈ c.elements, kv.1 ≠ ii ∧ x ∈ entryNodes kv) ∨
         (∃ kv ∈ c.elements, kv.1 = ii ∧ x ∈ entryNodes kv)) := by
      constructor
      · rintro ⟨kv, hmem, hx⟩
        by_cases h : kv.1 = ii
        · exact Or.inr ⟨kv, hmem, h, hx⟩
        · exact Or.inl ⟨kv, hmem, h, hx⟩
      · rintro (⟨kv, hmem, _, hx⟩ | ⟨kv, hmem, _, hx⟩) <;> exact ⟨kv, hmem, hx⟩
    rw [List.mem_toFinset, Finset.mem_sdiff, List.mem_toFinset,
        mem_subNodeList_delElem, mem_subNodeList, hsplitN, mem_uniqueNodesOf]
    generalize (∃ kv ∈ c.elements, kv.1 = ii ∧ x ∈ entryNodes kv) = B
    generalize (∃ kv ∈ c.elements, kv.1 ≠ ii ∧ x ∈ entryNodes kv) = A
    generalize (x ∈ c.termNodes) = K
    tauto
  · ext b
    have hsplitB : (∃ kv ∈ c.elements, b ∈ entryBranches kv) ↔
        ((∃ kv ∈ c.elements, kv.1 ≠ ii ∧ b ∈ entryBranches kv) ∨
         (∃ kv ∈ c.elements, kv.1 = ii ∧ b ∈ entryBranches kv)) := by
      constructor
      · rintro ⟨kv, hmem, hx⟩
        by_cases h : kv.1 = ii
        · exact Or.inr ⟨kv, hmem, h, hx⟩
        · exact Or.inl ⟨kv, hmem, h, hx⟩
      · rintro (⟨kv, hmem, _, hx⟩ | ⟨kv, hmem, _, hx⟩) <;> exact ⟨kv, hmem, hx⟩
    rw [List.mem_toFinset, Finset.mem_sdiff, List.mem_toFinset,
        mem_subBranchList_delElem, mem_subBranchList, hsplitB, mem_uniqueBranchesOf]
    generalize (∃ kv ∈ c.elements, kv.1 = ii ∧ b ∈ entryBranches kv) = B
    generalize (∃ kv ∈ c.elements, kv.1 ≠ ii ∧ b ∈ entryBranches kv) = A
    tauto

/-! ## Name lookup toolkit and hierarchical naming -/

theorem alookup_append_of_not_mem {α : Type} (l1 l2 : List (String × α)) (k : String)
    (h : k ∉ l1.map Prod.fst) : alookup (l1 ++ l2) k = alookup l2 k := by
  induction l1 with
  | nil => rfl
  | cons kv rest ih =>
    obtain ⟨k', v⟩ := kv
    have hk : k' ≠ k := by
      intro hc
      exact h (by simp [hc])
    rw [List.cons_append, alookup, if_neg hk]
    exact ih (fun hc => h (by simp at hc ⊢; exact Or.inr hc))

theorem alookup_map_name (l : List Node) (k : String) (h : k ∈ l.map Node.name) :
    alookup (l.map fun n => (n.name, n)) k = some (Node.mk k) := by
  induction l with
  | nil => simp at h
  | cons n rest ih =>
    by_cases hn : n.name = k
    · simp only [List.map_cons, alookup, if_pos hn]
      have : n = Node.mk k := by cases n; simp_all
      rw [this]
    · simp only [List.map_cons, alookup, if_neg hn]
      apply ih
      simp only [List.map_cons, List.mem_cons] at h
      rcases h with h | h
      · exact absurd h.symm hn
      · exact h

theorem alookup_mem {α : Type} (l : List (String × α)) (k : String) (v : α)
    (h : alookup l k = some v) : (k, v) ∈ l := by
  induction l with
  | nil => simp [alookup] at h
  | cons kv rest ih =>
    obtain ⟨k', v'⟩ := kv
    rw [alookup] at h
    by_cases hk : k' = k
    · rw [if_pos hk] at h
      subst hk
      obtain rfl : v' = v := Option.some.inj h
      exact List.mem_cons_self _ _
    · rw [if_neg hk] at h
      exact List.mem_cons_of_mem _ (ih h)

/-- C5: hierarchical dotted naming is consistent between parent and child
scopes: if the parent (a toplevel circuit) contains instance `ii` and the
child's flattened view has a non-terminal, non-ground node `n`, then the
child's `nodenames` binds `n`'s own name to `n`, the parent's `nodenames`
binds the dotted name `ii ++ "." ++ n.name`, and the value bound there is
exactly the dotted rename of `n`. -/
theorem hierarchical_nodename_consistency
    (c s : SubCircuit) (ii : String) (n : Node)
    (hroot : c.terminals = []) (hrootn : c.termNodes = [])
    (hfind : findElem c ii = some (.Sub s))
    (hnd : s.termNodes.Nodup)
    (hlen : s.termNodes.length = s.terminals.length)
    (hmem : n ∈ subNodeList s) (hnterm : n ∉ s.termNodes) (hngnd : n ≠ gnd)
    (hname : n.name ∉ s.terminals) :
    alookup (nodenames s) n.name = some n ∧
    translateNode ii s.termNodes n = Node.mk (ii ++ "." ++ n.name) ∧
    alookup (nodenames c) (ii ++ "." ++ n.name)
      = some (Node.mk (ii ++ "." ++ n.name)) := by
  have htrans : translateNode ii s.termNodes n = Node.mk (ii ++ "." ++ n.name) := by
    rw [translateNode, if_neg]
    rintro (h | h)
    · exact hnterm h
    · exact hngnd h
  refine ⟨?_, htrans, ?_⟩
  · -- child lookup
    rw [nodenames, alookup_append_of_not_mem]
    · have hdrop : n ∈ (subNodeList s).drop s.terminals.length := by
        have htake := subNodeList_take_terminals s hnd
        have hsplit := List.take_append_drop s.termNodes.length (subNodeList s)
        rw [htake] at hsplit
        have : n ∈ s.termNodes ++ (subNodeList s).drop s.termNodes.length := by
          rw [hsplit]; exact hmem
        rcases List.mem_append.mp this with h | h
        · exact absurd h hnterm
        · rw [← hlen]; exact h
      have hres := alookup_map_name ((subNodeList s).drop s.terminals.length) n.name
        (List.mem_map.mpr ⟨n, hdrop, rfl⟩)
      rw [hres]
    · intro hc
      apply hname
      have : (s.terminals.zip s.termNodes).map Prod.fst = s.terminals :=
        List.map_fst_zip _ _ (le_of_eq hlen.symm)
      rw [this] at hc
      exact hc
  · -- parent lookup
    have hels : (ii, Element.Sub s) ∈ c.elements := alookup_mem _ _ _ hfind
    have hmemc : Node.mk (ii ++ "." ++ n.name) ∈ subNodeList c := by
      rw [mem_subNodeList]
      refine Or.inr ⟨(ii, Element.Sub s), hels, ?_⟩
      show Node.mk (ii ++ "." ++ n.name) ∈ (subNodeList s).map (translateNode ii s.termNodes)
      exact List.mem_map.mpr ⟨n, hmem, htrans⟩
    rw [nodenames, hroot, hrootn]
    simp only [List.zip_nil_right, List.nil_append, List.length_nil, List.drop_zero]
    exact alookup_map_name _ _ (List.mem_map.mpr ⟨_, hmemc, rfl⟩)

theorem hierarchical_nodename_consistency_witness :
    (testCircuit.terminals = [] ∧ testCircuit.termNodes = [] ∧
     findElem testCircuit "I1" = some (.Sub mySubCTest) ∧
     mySubCTest.termNodes.Nodup ∧
     mySubCTest.termNodes.length = mySubCTest.terminals.length ∧
     Node.mk "internal" ∈ subNodeList mySubCTest ∧
     Node.mk "internal" ∉ mySubCTest.termNodes ∧
     Node.mk "internal" ≠ gnd ∧
     (Node.mk "internal").name ∉ mySubCTest.terminals) ∧
    (alookup (nodenames mySubCTest) (Node.mk "internal").name
        = some (Node.mk "internal") ∧
     translateNode "I1" mySubCTest.termNodes (Node.mk "internal")
        = Node.mk ("I1" ++ "." ++ (Node.mk "internal").name) ∧
     alookup (nodenames testCircuit) ("I1" ++ "." ++ (Node.mk "internal").name)
        = some (Node.mk ("I1" ++ "." ++ (Node.mk "internal").name))) :=
  ⟨⟨rfl, rfl, rfl, by decide, by decide, by decide, by decide, by decide, by decide⟩,
   hierarchical_nodename_consistency testCircuit mySubCTest "I1" (Node.mk "internal")
     rfl rfl rfl (by decide) (by decide) (by decide) (by decide) (by decide) (by decide)⟩

/-! ## Implicit node creation and the gnd nodename entry -/

/-- Modelled from the spec: the identifiers accepted where a node is
expected — an existing node, a bare string, or an integer. -/
inductive NodeId where
  | node (n : Node) : NodeId
  | str (s : String) : NodeId
  | int (i : Int) : NodeId

/-- Modelled from the spec: the coercion applied at element-construction
boundaries: an existing node maps to itself, a string to the node of that
name, an integer to the node named by its decimal representation. -/
def toNode : NodeId → Node
  | .node n => n
  | .str s => Node.mk s
  | .int i => Node.mk (toString i)

/-- The circuit of `test_add_nodes_implicitly`: `R1 = R(Node('a'), Node('b'))`,
then `R2 = R('a', 'c')`, then `R3 = R('b', 1)`, assigned one by one into an
empty toplevel circuit. -/
def implicitCircuit : SubCircuit :=
  setElem (setElem (setElem (SubCircuit.mk [] [] [])
    "R1" (.R (toNode (.node (Node.mk "a"))) (toNode (.node (Node.mk "b"))) (.sym "r")))
    "R2" (.R (toNode (.str "a")) (toNode (.str "c")) (.sym "r")))
    "R3" (.R (toNode (.str "b")) (toNode (.int 1)) (.sym "r"))

/-- C8: building nodes implicitly from mixed identifiers registers each
distinct canonical name exactly once — the node set is `{a, b, c, 1}` with
matching `nodenames` — and constructing a node from an existing node yields
that same node. -/
theorem implicit_node_registration :
    (subNodeList implicitCircuit).toFinset =
      {Node.mk "a", Node.mk "b", Node.mk "c", Node.mk "1"} ∧
    nodenames implicitCircuit =
      [("a", Node.mk "a"), ("b", Node.mk "b"),
       ("c", Node.mk "c"), ("1", Node.mk "1")] ∧
    (∀ n : Node, toNode (.node n) = n) :=
  ⟨by decide, by decide, fun n => rfl⟩

theorem alookup_map_name_none (l : List Node) (k : String)
    (h : k ∉ l.map Node.name) : alookup (l.map fun n => (n.name, n)) k = none := by
  induction l with
  | nil => rfl
  | cons n rest ih =>
    have hn : n.name ≠ k := fun hc => h (by simp [hc])
    simp only [List.map_cons, alookup, if_neg hn]
    exact ih (fun hc => h (by simp at hc ⊢; exact Or.inr hc))

theorem nodenames_root (c : SubCircuit)
    (hroot : c.terminals = []) (hrootn : c.termNodes = []) :
    nodenames c = (subNodeList c).map (fun n => (n.name, n)) := by
  rw [nodenames, hroot, hrootn]
  simp

theorem gnd_name_mem_iff (l : List Node) : "gnd" ∈ l.map Node.name ↔ gnd ∈ l := by
  rw [List.mem_map]
  constructor
  · rintro ⟨n, hn, hname⟩
    have : n = gnd := by cases n; simp_all [gnd]
    exact this ▸ hn
  · intro h
    exact ⟨gnd, h, rfl⟩

/-- C10: for a toplevel circuit, the key `"gnd"` is present in `nodenames`
iff some contained element (at any depth) references ground; when present it
maps to the ground singleton; and after a deletion that removes the last
referencing element, the entry is gone. -/
theorem gnd_nodenames_entry (c : SubCircuit) (ii : String)
    (hroot : c.terminals = []) (hrootn : c.termNodes = []) :
    (alookup (nodenames c) "gnd" ≠ none ↔ subRefsGnd c = true) ∧
    (∀ v, alookup (nodenames c) "gnd" = some v → v = gnd) ∧
    (subRefsGnd (delElem c ii) = false →
      alookup (nodenames (delElem c ii)) "gnd" = none) := by
  have key : ∀ d : SubCircuit, d.terminals = [] → d.termNodes = [] →
      (alookup (nodenames d) "gnd" ≠ none ↔ subRefsGnd d = true) ∧
      (∀ v, alookup (nodenames d) "gnd" = some v → v = gnd) := by
    intro d hd hdn
    rw [nodenames_root d hd hdn]
    by_cases hg : gnd ∈ subNodeList d
    · have hmemname : "gnd" ∈ (subNodeList d).map Node.name :=
        (gnd_name_mem_iff _).mpr hg
      rw [alookup_map_name _ _ hmemname]
      constructor
      · simp only [ne_eq, Option.some_ne_none, not_false_eq_true, true_iff]
        exact (gnd_mem_sub_iff d).mp hg
      · intro v hv
        obtain rfl : Node.mk "gnd" = v := Option.some.inj hv
        rfl
    · have hmemname : "gnd" ∉ (subNodeList d).map Node.name :=
        fun hc => hg ((gnd_name_mem_iff _).mp hc)
      rw [alookup_map_name_none _ _ hmemname]
      constructor
      · simp only [ne_eq, not_true_eq_false, false_iff]
        intro hc
        exact hg ((gnd_mem_sub_iff d).mpr hc)
      · intro v hv
        exact absurd hv (by simp)
  refine ⟨(key c hroot hrootn).1, (key c hroot hrootn).2, ?_⟩
  intro hdel
  have hd := key (delElem c ii) (by rw [delElem, SubCircuit.terminals, hroot])
    (by rw [delElem, SubCircuit.termNodes, hrootn])
  by_contra hc
  have := hd.1.mp hc
  rw [hdel] at this
  exact Bool.false_ne_true this

theorem gnd_nodenames_entry_witness :
    (testCircuit.terminals = [] ∧ testCircuit.termNodes = []) ∧
    ((alookup (nodenames testCircuit) "gnd" ≠ none ↔ subRefsGnd testCircuit = true) ∧
     (∀ v, alookup (nodenames testCircuit) "gnd" = some v → v = gnd) ∧
     (subRefsGnd (delElem testCircuit "I1") = false →
       alookup (nodenames (delElem testCircuit "I1")) "gnd" = none)) :=
  ⟨⟨rfl, rfl⟩, gnd_nodenames_entry testCircuit "I1" rfl rfl⟩

/-! ## The symbolic MNA system -/

/-- Position of the first occurrence of a value in a list. -/
def idxOf {α : Type} [DecidableEq α] : List α → α → Option ℕ
  | [], _ => none
  | a :: rest, x => if a = x then some 0 else (idxOf rest x).map (· + 1)

/-- Modelled from the spec: the unknown-ordering of the MNA system — every
non-ground flattened node, in flattened order. -/
def nonGroundNodes (c : SubCircuit) : List Node :=
  (subNodeList c).filter (fun n => n ≠ gnd)

def nodeIdx (c : SubCircuit) (n : Node) : Option ℕ :=
  idxOf (nonGroundNodes c) n

def branchIdx (c : SubCircuit) (b : Branch) : Option ℕ :=
  (idxOf (subBranchList c) b).map (· + (nonGroundNodes c).length)

def sysDim (c : SubCircuit) : ℕ :=
  (nonGroundNodes c).length + (subBranchList c).length

/-- Rename every terminal node of a primitive element. -/
def mapElemNodes (f : Node → Node) : Element → Element
  | .R p m r => .R (f p) (f m) r
  | .C p m c => .C (f p) (f m) c
  | .VS p m v => .VS (f p) (f m) v
  | .IS p m i => .IS (f p) (f m) i
  | .Sub s => .Sub s

def translatePrim (iname : String) (terms : List Node) : Element → Element :=
  mapElemNodes (translateNode iname terms)

mutual
/-- The flattened primitive-element list of a circuit: nested instances are
expanded, with their primitives' nodes translated by the dotted rename. -/
def flatElems : SubCircuit → List Element
  | .mk _ _ els => walkFlat els

def walkFlat : List (String × Element) → List Element
  | [] => []
  | (iname, .Sub s) :: rest =>
      (flatElems s).map (translatePrim iname s.termNodes) ++ walkFlat rest
  | (_, e) :: rest => e :: walkFlat rest
end

/-- Admittance stamp between two (possibly ground) node indices. -/
def admTriples {K : Type} [Field K] (g : K) (pi mi : Option ℕ) : List (ℕ × ℕ × K) :=
  (match pi with | some i => [(i, i, g)] | none => []) ++
  (match mi with | some j => [(j, j, g)] | none => []) ++
  (match pi, mi with
   | some i, some j => [(i, j, -g), (j, i, -g)]
   | _, _ => [])

/-- Voltage-source stamp: KCL column entries for the branch current and the
voltage-constraint row. -/
def vsTriples {K : Type} [Field K] (pi mi : Option ℕ) (k : ℕ) : List (ℕ × ℕ × K) :=
  (match pi with | some i => [(i, k, 1), (k, i, 1)] | none => []) ++
  (match mi with | some j => [(j, k, -1), (k, j, -1)] | none => [])

/-- Modelled from the spec: each element's contribution of
(row, column, coefficient) triples into the MNA coefficient matrix. -/
def stampA {K : Type} [Field K] (nIdx : Node → Option ℕ) (bIdx : Branch → Option ℕ)
    (env : String → K) (s : K) : Element → List (ℕ × ℕ × K)
  | .R p m r => admTriples (r.eval env)⁻¹ (nIdx p) (nIdx m)
  | .C p m c => admTriples (s * c.eval env) (nIdx p) (nIdx m)
  | .VS p m _ =>
      (match bIdx (Branch.mk p m) with
       | some k => vsTriples (nIdx p) (nIdx m) k
       | none => [])
  | .IS _ _ _ => []
  | .Sub _ => []

/-- Modelled from the spec: each element's contribution of (row, value)
pairs into the MNA right-hand side.  A current source `IS p m iac` drives
`iac` from `p` to `m` through itself, i.e. it draws `iac` out of node `p`
and injects `iac` into node `m`; a voltage source constrains its row to its
value. -/
def stampB {K : Type} [Field K] (nIdx : Node → Option ℕ) (bIdx : Branch → Option ℕ)
    (env : String → K) : Element → List (ℕ × K)
  | .IS p m i =>
      (match nIdx p with | some ip => [(ip, -(i.eval env))] | none => []) ++
      (match nIdx m with | some im => [(im, i.eval env)] | none => [])
  | .VS p m v =>
      (match bIdx (Branch.mk p m) with
       | some k => [(k, v.eval env)]
       | none => [])
  | _ => []

def allTriples {K : Type} [Field K] (c : SubCircuit) (env : String → K) (s : K) :
    List (ℕ × ℕ × K) :=
  (flatElems c).flatMap (stampA (nodeIdx c) (branchIdx c) env s)

def allRhs {K : Type} [Field K] (c : SubCircuit) (env : String → K) :
    List (ℕ × K) :=
  (flatElems c).flatMap (stampB (nodeIdx c) (branchIdx c) env)

/-- The assembled MNA coefficient matrix: stamps accumulate into shared
cells. -/
def Amat {K : Type} [Field K] (c : SubCircuit) (env : String → K) (s : K)
    (i j : ℕ) : K :=
  (allTriples c env s).foldl
    (fun acc t => if t.1 = i ∧ t.2.1 = j then acc + t.2.2 else acc) 0

/-- The assembled MNA right-hand side. -/
def bvec {K : Type} [Field K] (c : SubCircuit) (env : String → K) (s : K)
    (i : ℕ) : K :=
  (allRhs c env).foldl (fun acc t => if t.1 = i then acc + t.2 else acc) 0

/-- Modelled from the spec: `x` solves the assembled symbolic linear system
(node voltages first, branch currents after). -/
def mnaHolds {K : Type} [Field K] (c : SubCircuit) (env : String → K) (s : K)
    (x : ℕ → K) : Prop :=
  ∀ i < sysDim c, (∑ j ∈ Finset.range (sysDim c), Amat c env s i j * x j) = bvec c env s i

/-- Node voltage view of a solution (ground is the zero reference). -/
def nodeVolt {K : Type} [Field K] (c : SubCircuit) (x : ℕ → K) (n : Node) : K :=
  if n = gnd then 0 else
    match nodeIdx c n with
    | some i => x i
    | none => 0

/-- Branch current view of a solution. -/
def branchCur {K : Type} [Field K] (c : SubCircuit) (x : ℕ → K) (b : Branch) : K :=
  match branchIdx c b with
  | some k => x k
  | none => 0

/-! ## Current probing and result lookup -/

/-- The node bound to a named terminal of an element. -/
def elemTermNode : Element → String → Option Node
  | .R p _ _, "plus" => some p
  | .R _ m _, "minus" => some m
  | .C p _ _, "plus" => some p
  | .C _ m _, "minus" => some m
  | .VS p _ _, "plus" => some p
  | .VS _ m _, "minus" => some m
  | .IS p _ _, "plus" => some p
  | .IS _ m _, "minus" => some m
  | .Sub s, t => (idxOf s.terminals t).bind (fun k => s.termNodes[k]?)
  | _, _ => none

mutual
/-- Substitute one node for another throughout an element (the terminal
aliasing discipline means a spliced terminal is rewired by substituting the
node it was bound to). -/
def substNodeElem (old new : Node) : Element → Element
  | .R p m r => .R (if p = old then new else p) (if m = old then new else m) r
  | .C p m c => .C (if p = old then new else p) (if m = old then new else m) c
  | .VS p m v => .VS (if p = old then new else p) (if m = old then new else m) v
  | .IS p m i => .IS (if p = old then new else p) (if m = old then new else m) i
  | .Sub s => .Sub (substNodeSub old new s)

def substNodeSub (old new : Node) : SubCircuit → SubCircuit
  | .mk t tns els =>
      .mk t (tns.map (fun n => if n = old then new else n)) (substNodeList old new els)

def substNodeList (old new : Node) : List (String × Element) → List (String × Element)
  | [] => []
  | (iname, e) :: rest => (iname, substNodeElem old new e) :: substNodeList old new rest
end

/-- Rebind a named terminal of an element to a new node.  For a primitive
the terminal's field changes; for a nested instance the old bound node is
substituted throughout (aliasing: the supplied node is the identity used
everywhere inside). -/
def rebindTerm : Element → String → Node → Option Element
  | .R p m r, "plus", nn => some (.R nn m r)
  | .R p m r, "minus", nn => some (.R p nn r)
  | .C p m c, "plus", nn => some (.C nn m c)
  | .C p m c, "minus", nn => some (.C p nn c)
  | .VS p m v, "plus", nn => some (.VS nn m v)
  | .VS p m v, "minus", nn => some (.VS p nn v)
  | .IS p m i, "plus", nn => some (.IS nn m i)
  | .IS p m i, "minus", nn => some (.IS p nn i)
  | .Sub s, t, nn =>
      (idxOf s.terminals t).bind (fun k =>
        (s.termNodes[k]?).map (fun old => .Sub (substNodeSub old nn s)))
  | _, _, _ => none

/-- Modelled from the spec: `save_current` — locate the element at the dotted
path's owning scope, splice a fresh node between the probed terminal and its
original node, and insert a zero-valued voltage source from the original
node to the fresh node, so that the new branch's current equals the current
that used to flow into the terminal. -/
def saveCurrent : SubCircuit → List String → Option SubCircuit
  | c, [iname, t] =>
      (findElem c iname).bind fun e =>
      (elemTermNode e t).bind fun n =>
      let fresh := Node.mk (iname ++ "." ++ t ++ "_probe")
      (rebindTerm e t fresh).map fun e' =>
        SubCircuit.mk c.terminals c.termNodes
          ((c.elements.map (fun kv => if kv.1 = iname then (iname, e') else kv))
            ++ [(iname ++ "." ++ t ++ "_probe_vs", .VS n fresh (.const 0))])
  | c, iname :: rest =>
      (findElem c iname).bind fun e =>
        match e with
        | .Sub s =>
            (saveCurrent s rest).map fun s' =>
              SubCircuit.mk c.terminals c.termNodes
                (c.elements.map (fun kv => if kv.1 = iname then (iname, .Sub s') else kv))
        | _ => none
  | _, _ => none

/-- First voltage source in a scope whose minus node is the given node (the
ammeter inserted by `save_current` sits exactly there). -/
def findProbeVS : List (String × Element) → Node → Option Branch
  | [], _ => none
  | (_, .VS p m _) :: rest, n =>
      if m = n then some (Branch.mk p m) else findProbeVS rest n
  | _ :: rest, n => findProbeVS rest n

/-- Modelled from the spec: `get_terminal_branch` — resolve a dotted terminal
path to the branch exposing that terminal's current: the element's own branch
if it is a voltage source, else the branch of the ammeter voltage source
attached to the terminal's node in the owning scope; `none` when no such
branch exists. -/
def getTerminalBranch : SubCircuit → List String → Option Branch
  | c, [iname, t] =>
      (findElem c iname).bind fun e =>
        match e with
        | .VS p m _ =>
            if t = "plus" ∨ t = "minus" then some (Branch.mk p m) else none
        | _ =>
            (elemTermNode e t).bind fun n => findProbeVS c.elements n
  | c, iname :: rest =>
      (findElem c iname).bind fun e =>
        match e with
        | .Sub s => (getTerminalBranch s rest).map (translateBranch iname s.termNodes)
        | _ => none
  | _, _ => none

/-- Current flowing from node `n` into an element, as a function of the
solved node voltages `φ` and branch currents `ψ`. -/
def elemCurrentInto {K : Type} [Field K] (env : String → K) (s : K)
    (φ : Node → K) (ψ : Branch → K) : Element → Node → K
  | .R p m r, n =>
      (if p = n then (φ p - φ m) / r.eval env else 0)
        + (if m = n then (φ m - φ p) / r.eval env else 0)
  | .C p m c, n =>
      (if p = n then s * c.eval env * (φ p - φ m) else 0)
        + (if m = n then s * c.eval env * (φ m - φ p) else 0)
  | .IS p m i, n =>
      (if p = n then i.eval env else 0) + (if m = n then -(i.eval env) else 0)
  | .VS p m _, n =>
      (if p = n then ψ (Branch.mk p m) else 0)
        + (if m = n then -(ψ (Branch.mk p m)) else 0)
  | .Sub _, _ => 0

/-- Modelled from the spec: the stamp-implied fallback derivation of a
terminal current — for a primitive, the element's own current into the
terminal's node; for a nested instance, the total current its flattened
primitives draw from the terminal's node.  `tr` accumulates the dotted
renames from the root down to the owning scope. -/
def fallbackCurrent {K : Type} [Field K] (env : String → K) (s : K)
    (φ : Node → K) (ψ : Branch → K) : (Node → Node) → SubCircuit → List String → Option K
  | tr, c, [iname, t] =>
      (findElem c iname).bind fun e =>
      (elemTermNode e t).bind fun n =>
        match e with
        | .Sub sc =>
            some (((flatElems sc).map (translatePrim iname sc.termNodes)).foldl
              (fun acc el => acc + elemCurrentInto env s φ ψ (mapElemNodes tr el) (tr n)) 0)
        | el => some (elemCurrentInto env s φ ψ (mapElemNodes tr el) (tr n))
  | tr, c, iname :: rest =>
      (findElem c iname).bind fun e =>
        match e with
        | .Sub sc =>
            fallbackCurrent env s φ ψ
              (fun n => tr (translateNode iname sc.termNodes n)) sc rest
        | _ => none
  | _, _, _ => none

/-- Modelled from the spec: the `AnalysisResult` current query `i(path)` —
resolve via `get_terminal_branch` first, else fall back to the stamp-implied
derivation. -/
def resI {K : Type} [Field K] (c : SubCircuit) (env : String → K) (s : K)
    (x : ℕ → K) (path : List String) : Option K :=
  match getTerminalBranch c path with
  | some b =>
      (match branchIdx c b with
       | some k => some (x k)
       | none => none)
  | none => fallbackCurrent env s (nodeVolt c x) (branchCur c x) id c path

/-! ## The current-divider circuit of `create_current_divider` -/

/-- The `MySubC` instance `I1(n2, gnd)` of `create_current_divider`:
`R3(plus, minus)` and `I2 = IS(plus, minus, iac=1)` with terminals bound to
`n2` and `gnd`. -/
def currentDividerSub : SubCircuit :=
  .mk ["plus", "minus"] [Node.mk "n2", gnd]
    [("R3", .R (Node.mk "n2") gnd (.sym "R3")),
     ("I2", .IS (Node.mk "n2") gnd (.const 1))]

/-- The current divider: `IS(gnd, n1, iac=2)`, `R1(n1, n2)`,
`I1 = MySubC(n2, gnd)`, `C2(n2, gnd)`. -/
def currentDivider : SubCircuit :=
  .mk [] []
    [("IS", .IS gnd (Node.mk "n1") (.const 2)),
     ("R1", .R (Node.mk "n1") (Node.mk "n2") (.sym "R1")),
     ("I1", .Sub currentDividerSub),
     ("C2", .C (Node.mk "n2") gnd (.sym "C2"))]

/-- The current divider after `save_current('I1.plus')`: the instance `I1`
is respliced onto a fresh probe node and a zero-valued ammeter voltage
source runs from `n2` to the probe node. -/
def probedDivider : SubCircuit :=
  .mk [] []
    [("IS", .IS gnd (Node.mk "n1") (.const 2)),
     ("R1", .R (Node.mk "n1") (Node.mk "n2") (.sym "R1")),
     ("I1", .Sub (.mk ["plus", "minus"] [Node.mk "I1.plus_probe", gnd]
        [("R3", .R (Node.mk "I1.plus_probe") gnd (.sym "R3")),
         ("I2", .IS (Node.mk "I1.plus_probe") gnd (.const 1))])),
     ("C2", .C (Node.mk "n2") gnd (.sym "C2")),
     ("I1.plus_probe_vs", .VS (Node.mk "n2") (Node.mk "I1.plus_probe") (.const 0))]

/-- The parameter environment of the divider tests. -/
def dividerEnv {K : Type} [Field K] (r1 r3 c2 : K) : String → K :=
  fun nm => if nm = "R1" then r1 else if nm = "R3" then r3 else
    if nm = "C2" then c2 else 0

example : saveCurrent currentDivider ["I1", "plus"] = some probedDivider := rfl

example : sysDim currentDivider = 2 := rfl
example : sysDim probedDivider = 4 := rfl
example : nonGroundNodes probedDivider =
  [Node.mk "n1", Node.mk "n2", Node.mk "I1.plus_probe"] := rfl
example : subBranchList probedDivider =
  [Branch.mk (Node.mk "n2") (Node.mk "I1.plus_probe")] := rfl
example : getTerminalBranch probedDivider ["I1", "plus"] =
  some (Branch.mk (Node.mk "n2") (Node.mk "I1.plus_probe")) := rfl
example : getTerminalBranch currentDivider ["I1", "plus"] = none := rfl

/-- C1: for the current divider, after probing `I1.plus` the solved current
into `I1.plus` is `(2 + C2*R3*s)/(1 + C2*R3*s)` and the current into
`C2.plus` is `s*R3*C2/(1 + s*R3*C2)`; the same currents result without the
probe, via the stamp-implied fallback derivation.  The symbolic linear solve
is modelled extensionally: the MNA system of each circuit has a solution,
and every solution yields exactly the claimed currents. -/
theorem current_divider_currents {K : Type} [Field K] (r1 r3 c2 s : K)
    (hr1 : r1 ≠ 0) (hr3 : r3 ≠ 0) (hden : 1 + c2 * r3 * s ≠ 0) :
    saveCurrent currentDivider ["I1", "plus"] = some probedDivider ∧
    getTerminalBranch probedDivider ["I1", "plus"] ≠ none ∧
    (∃ x : ℕ → K, mnaHolds probedDivider (dividerEnv r1 r3 c2) s x) ∧
    (∀ x : ℕ → K, mnaHolds probedDivider (dividerEnv r1 r3 c2) s x →
      resI probedDivider (dividerEnv r1 r3 c2) s x ["I1", "plus"]
          = some ((2 + c2 * r3 * s) / (1 + c2 * r3 * s)) ∧
      resI probedDivider (dividerEnv r1 r3 c2) s x ["C2", "plus"]
          = some (s * r3 * c2 / (1 + s * r3 * c2))) ∧
    (∃ x : ℕ → K, mnaHolds currentDivider (dividerEnv r1 r3 c2) s x) ∧
    (∀ x : ℕ → K, mnaHolds currentDivider (dividerEnv r1 r3 c2) s x →
      resI currentDivider (dividerEnv r1 r3 c2) s x ["I1", "plus"]
          = some ((2 + c2 * r3 * s) / (1 + c2 * r3 * s)) ∧
      resI currentDivider (dividerEnv r1 r3 c2) s x ["C2", "plus"]
          = some (s * r3 * c2 / (1 + s * r3 * c2))) := by
  have hrr : r3 * r3⁻¹ = 1 := mul_inv_cancel₀ hr3
  have hden2 : 1 + s * c2 * r3 ≠ 0 := fun h => hden (by linear_combination h)
  have hden3 : 1 + s * r3 * c2 ≠ 0 := fun h => hden (by linear_combination h)
  refine ⟨rfl, by decide, ?_, ?_, ?_, ?_⟩
  · -- a solution of the probed system
    refine ⟨fun i => if i = 0 then (2 * r1 * (1 + c2 * r3 * s) + r3) / (1 + c2 * r3 * s)
        else if i = 1 then r3 / (1 + c2 * r3 * s)
        else if i = 2 then r3 / (1 + c2 * r3 * s)
        else (2 + c2 * r3 * s) / (1 + c2 * r3 * s), ?_⟩
    intro i hi
    rw [show sysDim probedDivider = 4 from rfl] at hi
    interval_cases i <;>
    · simp only [show sysDim probedDivider = 4 from rfl,
        Finset.sum_range_succ, Finset.sum_range_zero]
      simp [Amat, bvec, allTriples, allRhs, flatElems, walkFlat, translatePrim,
        mapElemNodes, translateNode, stampA, stampB, admTriples, vsTriples,
        nodeIdx, branchIdx, idxOf, nonGroundNodes, subNodeList, walkNodes,
        elemRawNodes, dedupKF, dedupKFAux, SymExpr.eval, dividerEnv,
        probedDivider, subBranchList, walkBranches, gnd,
        SubCircuit.termNodes, SubCircuit.terminals, SubCircuit.elements]
      try field_simp
      try ring
  · -- every probed solution gives the claimed currents
    intro x hx
    have h0 := hx 0 (by decide)
    have h1 := hx 1 (by decide)
    have h2 := hx 2 (by decide)
    have h3 := hx 3 (by decide)
    rw [show sysDim probedDivider = 4 from rfl] at h0 h1 h2 h3
    simp only [Finset.sum_range_succ, Finset.sum_range_zero] at h0 h1 h2 h3
    simp [Amat, bvec, allTriples, allRhs, flatElems, walkFlat, translatePrim,
      mapElemNodes, translateNode, stampA, stampB, admTriples, vsTriples,
      nodeIdx, branchIdx, idxOf, nonGroundNodes, subNodeList, walkNodes,
      elemRawNodes, dedupKF, dedupKFAux, SymExpr.eval, dividerEnv,
      probedDivider, subBranchList, walkBranches, gnd,
      SubCircuit.termNodes, SubCircuit.terminals, SubCircuit.elements]
        at h0 h1 h2 h3
    have e5 : s * c2 * x 1 + x 3 = 2 := by linear_combination h0 + h1
    have e6 : x 2 - r3 * x 3 = -r3 := by linear_combination r3 * h2 - x 2 * hrr
    have hx1 : x 1 * (1 + c2 * r3 * s) = r3 := by
      linear_combination e6 + h3 + r3 * e5
    have hval : x 1 = r3 / (1 + c2 * r3 * s) := by
      rw [eq_div_iff hden]; exact hx1
    constructor
    · show some (x 3) = _
      refine congrArg some ?_
      have hx3 : x 3 = 2 - s * c2 * x 1 := by linear_combination e5
      rw [hx3, hval]
      field_simp
      ring
    · have rb : resI probedDivider (dividerEnv r1 r3 c2) s x ["C2", "plus"]
          = some (s * c2 * x 1) := by
        simp [resI, getTerminalBranch, findElem, alookup, findProbeVS, elemTermNode,
          fallbackCurrent, elemCurrentInto, mapElemNodes, translatePrim, translateNode,
          flatElems, walkFlat, nodeVolt, branchCur, nodeIdx, branchIdx, idxOf,
          nonGroundNodes, subNodeList, walkNodes, elemRawNodes, dedupKF, dedupKFAux,
          SymExpr.eval, dividerEnv, probedDivider, subBranchList, walkBranches, gnd,
          SubCircuit.termNodes, SubCircuit.terminals, SubCircuit.elements]
      rw [rb]
      refine congrArg some ?_
      rw [eq_div_iff hden3]
      linear_combination s * c2 * hx1
  · -- a solution of the unprobed system
    refine ⟨fun i => if i = 0 then (2 * r1 * (1 + c2 * r3 * s) + r3) / (1 + c2 * r3 * s)
        else r3 / (1 + c2 * r3 * s), ?_⟩
    intro i hi
    rw [show sysDim currentDivider = 2 from rfl] at hi
    interval_cases i <;>
    · simp only [show sysDim currentDivider = 2 from rfl,
        Finset.sum_range_succ, Finset.sum_range_zero]
      simp [Amat, bvec, allTriples, allRhs, flatElems, walkFlat, translatePrim,
        mapElemNodes, translateNode, stampA, stampB, admTriples, vsTriples,
        nodeIdx, branchIdx, idxOf, nonGroundNodes, subNodeList, walkNodes,
        elemRawNodes, dedupKF, dedupKFAux, SymExpr.eval, dividerEnv,
        currentDivider, currentDividerSub, subBranchList, walkBranches, gnd,
        SubCircuit.termNodes, SubCircuit.terminals, SubCircuit.elements]
      try field_simp
      try ring
  · -- every unprobed solution gives the claimed currents
    intro x hx
    have g0 := hx 0 (by decide)
    have g1 := hx 1 (by decide)
    rw [show sysDim currentDivider = 2 from rfl] at g0 g1
    simp only [Finset.sum_range_succ, Finset.sum_range_zero] at g0 g1
    simp [Amat, bvec, allTriples, allRhs, flatElems, walkFlat, translatePrim,
      mapElemNodes, translateNode, stampA, stampB, admTriples, vsTriples,
      nodeIdx, branchIdx, idxOf, nonGroundNodes, subNodeList, walkNodes,
      elemRawNodes, dedupKF, dedupKFAux, SymExpr.eval, dividerEnv,
      currentDivider, currentDividerSub, subBranchList, walkBranches, gnd,
      SubCircuit.termNodes, SubCircuit.terminals, SubCircuit.elements]
        at g0 g1
    have hx1 : x 1 * (1 + c2 * r3 * s) = r3 := by
      linear_combination r3 * g0 + r3 * g1 - x 1 * hrr
    have hval : x 1 = r3 / (1 + c2 * r3 * s) := by
      rw [eq_div_iff hden]; exact hx1
    have ra : resI currentDivider (dividerEnv r1 r3 c2) s x ["I1", "plus"]
        = some (x 1 / r3 + 1) := by
      simp [resI, getTerminalBranch, findElem, alookup, findProbeVS, elemTermNode,
        fallbackCurrent, elemCurrentInto, mapElemNodes, translatePrim, translateNode,
        flatElems, walkFlat, nodeVolt, branchCur, nodeIdx, branchIdx, idxOf,
        nonGroundNodes, subNodeList, walkNodes, elemRawNodes, dedupKF, dedupKFAux,
        SymExpr.eval, dividerEnv, currentDivider, currentDividerSub,
        subBranchList, walkBranches, gnd,
        SubCircuit.termNodes, SubCircuit.terminals, SubCircuit.elements]
    have rb : resI currentDivider (dividerEnv r1 r3 c2) s x ["C2", "plus"]
        = some (s * c2 * x 1) := by
      simp [resI, getTerminalBranch, findElem, alookup, findProbeVS, elemTermNode,
        fallbackCurrent, elemCurrentInto, mapElemNodes, translatePrim, translateNode,
        flatElems, walkFlat, nodeVolt, branchCur, nodeIdx, branchIdx, idxOf,
        nonGroundNodes, subNodeList, walkNodes, elemRawNodes, dedupKF, dedupKFAux,
        SymExpr.eval, dividerEnv, currentDivider, currentDividerSub,
        subBranchList, walkBranches, gnd,
        SubCircuit.termNodes, SubCircuit.terminals, SubCircuit.elements]
    constructor
    · rw [ra]
      refine congrArg some ?_
      rw [hval]
      field_simp
      ring
    · rw [rb]
      refine congrArg some ?_
      rw [eq_div_iff hden3]
      linear_combination s * c2 * hx1

theorem current_divider_currents_witness :
    ((1:ℚ) ≠ 0 ∧ (1:ℚ) ≠ 0 ∧ (1:ℚ) + 1 * 1 * 1 ≠ 0) ∧
    (saveCurrent currentDivider ["I1", "plus"] = some probedDivider ∧
     getTerminalBranch probedDivider ["I1", "plus"] ≠ none ∧
     (∃ x : ℕ → ℚ, mnaHolds probedDivider (dividerEnv 1 1 1) 1 x) ∧
     (∀ x : ℕ → ℚ, mnaHolds probedDivider (dividerEnv 1 1 1) 1 x →
       resI probedDivider (dividerEnv 1 1 1) 1 x ["I1", "plus"]
           = some ((2 + 1 * 1 * 1) / (1 + 1 * 1 * 1)) ∧
       resI probedDivider (dividerEnv 1 1 1) 1 x ["C2", "plus"]
           = some (1 * 1 * 1 / (1 + 1 * 1 * 1))) ∧
     (∃ x : ℕ → ℚ, mnaHolds currentDivider (dividerEnv 1 1 1) 1 x) ∧
     (∀ x : ℕ → ℚ, mnaHolds currentDivider (dividerEnv 1 1 1) 1 x →
       resI currentDivider (dividerEnv 1 1 1) 1 x ["I1", "plus"]
           = some ((2 + 1 * 1 * 1) / (1 + 1 * 1 * 1)) ∧
       resI currentDivider (dividerEnv 1 1 1) 1 x ["C2", "plus"]
           = some (1 * 1 * 1 / (1 + 1 * 1 * 1)))) :=
  ⟨⟨by norm_num, by norm_num, by norm_num⟩,
   @current_divider_currents ℚ _ 1 1 1 1 (by norm_num) (by norm_num) (by norm_num)⟩

/-! ## Toolkit for the probe frame theorem: index lookups -/

theorem idxOf_lt_length {α : Type} [DecidableEq α] :
    ∀ (l : List α) (a : α) (i : ℕ), idxOf l a = some i → i < l.length := by
  intro l
  induction l with
  | nil => intro a i h; simp [idxOf] at h
  | cons b rest ih =>
    intro a i h
    rw [idxOf] at h
    by_cases hb : b = a
    · rw [if_pos hb] at h
      obtain rfl : (0:ℕ) = i := Option.some.inj h
      simp
    · rw [if_neg hb] at h
      obtain ⟨j, hj, rfl⟩ := Option.map_eq_some'.mp h
      simpa using Nat.succ_lt_succ (ih a j hj)

theorem idxOf_inj {α : Type} [DecidableEq α] :
    ∀ (l : List α) (a b : α) (i : ℕ), idxOf l a = some i → idxOf l b = some i → a = b := by
  intro l
  induction l with
  | nil => intro a b i h; simp [idxOf] at h
  | cons c rest ih =>
    intro a b i ha hb
    rw [idxOf] at ha hb
    by_cases hca : c = a <;> by_cases hcb : c = b
    · exact hca ▸ hcb ▸ rfl
    · rw [if_pos hca] at ha
      rw [if_neg hcb] at hb
      obtain rfl : (0:ℕ) = i := Option.some.inj ha
      obtain ⟨j, hj, hj0⟩ := Option.map_eq_some'.mp hb
      exact absurd hj0 (by omega)
    · rw [if_neg hca] at ha
      rw [if_pos hcb] at hb
      obtain rfl : (0:ℕ) = i := Option.some.inj hb
      obtain ⟨j, hj, hj0⟩ := Option.map_eq_some'.mp ha
      exact absurd hj0 (by omega)
    · rw [if_neg hca] at ha
      rw [if_neg hcb] at hb
      obtain ⟨j, hj, hji⟩ := Option.map_eq_some'.mp ha
      obtain ⟨j', hj', hji'⟩ := Option.map_eq_some'.mp hb
      exact ih a b j hj (by rwa [show j' = j from by omega] at hj')

theorem idxOf_mem {α : Type} [DecidableEq α] :
    ∀ (l : List α) (a : α), a ∈ l → ∃ i, idxOf l a = some i := by
  intro l
  induction l with
  | nil => intro a h; simp at h
  | cons b rest ih =>
    intro a h
    by_cases hb : b = a
    · exact ⟨0, by rw [idxOf, if_pos hb]⟩
    · have : a ∈ rest := by
        rcases List.mem_cons.mp h with h' | h'
        · exact absurd h'.symm hb
        · exact h'
      obtain ⟨i, hi⟩ := ih a this
      exact ⟨i + 1, by rw [idxOf, if_neg hb, hi]; rfl⟩

theorem idxOf_eq_none {α : Type} [DecidableEq α] :
    ∀ (l : List α) (a : α), a ∉ l → idxOf l a = none := by
  intro l
  induction l with
  | nil => intro a _; rfl
  | cons b rest ih =>
    intro a h
    have hb : b ≠ a := fun hc => h (hc ▸ List.mem_cons_self _ _)
    rw [idxOf, if_neg hb, ih a (fun hc => h (List.mem_cons_of_mem _ hc))]
    rfl

theorem idxOf_getElem {α : Type} [DecidableEq α] :
    ∀ (l : List α) (a : α) (i : ℕ), l.Nodup → idxOf l a = some i → l[i]? = some a := by
  intro l
  induction l with
  | nil => intro a i _ h; simp [idxOf] at h
  | cons b rest ih =>
    intro a i hnd h
    rw [idxOf] at h
    by_cases hb : b = a
    · rw [if_pos hb] at h
      obtain rfl : (0:ℕ) = i := Option.some.inj h
      simp [hb]
    · rw [if_neg hb] at h
      obtain ⟨j, hj, rfl⟩ := Option.map_eq_some'.mp h
      have := ih a j (List.nodup_cons.mp hnd).2 hj
      simpa using this

theorem getElem_idxOf {α : Type} [DecidableEq α] :
    ∀ (l : List α) (a : α) (i : ℕ), l.Nodup → l[i]? = some a → idxOf l a = some i := by
  intro l
  induction l with
  | nil => intro a i _ h; simp at h
  | cons b rest ih =>
    intro a i hnd h
    match i with
    | 0 =>
      have hb : b = a := by simpa using h
      rw [idxOf, if_pos hb]
    | j + 1 =>
      have hrest : rest[j]? = some a := by simpa using h
      have ha : a ∈ rest := List.getElem?_mem hrest
      have hb : b ≠ a := fun hc => (List.nodup_cons.mp hnd).1 (hc ▸ ha)
      rw [idxOf, if_neg hb, ih a j (List.nodup_cons.mp hnd).2 hrest]
      rfl

/-! ## Row decomposition of the assembled system -/

/-- The value a triple list contributes to row `i` against a vector `x`. -/
def rowSum {K : Type} [Field K] (L : List (ℕ × ℕ × K)) (i : ℕ) (x : ℕ → K) : K :=
  L.foldl (fun acc t => if t.1 = i then acc + t.2.2 * x t.2.1 else acc) 0

/-- The value a right-hand-side list contributes to row `i`. -/
def rhsSum {K : Type} [Field K] (L : List (ℕ × K)) (i : ℕ) : K :=
  L.foldl (fun acc t => if t.1 = i then acc + t.2 else acc) 0

theorem rowSum_shift {K : Type} [Field K] :
    ∀ (L : List (ℕ × ℕ × K)) (a : K) (i : ℕ) (x : ℕ → K),
    L.foldl (fun acc t => if t.1 = i then acc + t.2.2 * x t.2.1 else acc) a
      = a + rowSum L i x := by
  intro L
  induction L with
  | nil => intro a i x; simp [rowSum]
  | cons t rest ih =>
    intro a i x
    by_cases h : t.1 = i
    · simp only [List.foldl_cons, rowSum, if_pos h]
      rw [ih (a + t.2.2 * x t.2.1), ih (0 + t.2.2 * x t.2.1)]
      ring
    · simp only [List.foldl_cons, rowSum, if_neg h]
      rw [ih a]
      rfl

theorem rowSum_cons {K : Type} [Field K] (t : ℕ × ℕ × K) (L : List (ℕ × ℕ × K))
    (i : ℕ) (x : ℕ → K) :
    rowSum (t :: L) i x = (if t.1 = i then t.2.2 * x t.2.1 else 0) + rowSum L i x := by
  rw [rowSum, List.foldl_cons, rowSum_shift]
  by_cases h : t.1 = i <;> simp [h]

theorem rowSum_append {K : Type} [Field K] (L1 L2 : List (ℕ × ℕ × K)) (i : ℕ) (x : ℕ → K) :
    rowSum (L1 ++ L2) i x = rowSum L1 i x + rowSum L2 i x := by
  rw [rowSum, List.foldl_append, rowSum_shift]
  rfl

theorem rhsSum_shift {K : Type} [Field K] :
    ∀ (L : List (ℕ × K)) (a : K) (i : ℕ),
    L.foldl (fun acc t => if t.1 = i then acc + t.2 else acc) a = a + rhsSum L i := by
  intro L
  induction L with
  | nil => intro a i; simp [rhsSum]
  | cons t rest ih =>
    intro a i
    by_cases h : t.1 = i
    · simp only [List.foldl_cons, rhsSum, if_pos h]
      rw [ih (a + t.2), ih (0 + t.2)]
      ring
    · simp only [List.foldl_cons, rhsSum, if_neg h]
      rw [ih a]
      rfl

theorem rhsSum_cons {K : Type} [Field K] (t : ℕ × K) (L : List (ℕ × K)) (i : ℕ) :
    rhsSum (t :: L) i = (if t.1 = i then t.2 else 0) + rhsSum L i := by
  rw [rhsSum, List.foldl_cons, rhsSum_shift]
  by_cases h : t.1 = i <;> simp [h]

theorem rhsSum_append {K : Type} [Field K] (L1 L2 : List (ℕ × K)) (i : ℕ) :
    rhsSum (L1 ++ L2) i = rhsSum L1 i + rhsSum L2 i := by
  rw [rhsSum, List.foldl_append, rhsSum_shift]
  rfl

theorem rowSum_flatMap {K : Type} [Field K] {β : Type} (l : List β)
    (g : β → List (ℕ × ℕ × K)) (i : ℕ) (x : ℕ → K) :
    rowSum (l.flatMap g) i x = (l.map (fun e => rowSum (g e) i x)).sum := by
  induction l with
  | nil => simp [rowSum]
  | cons e rest ih => rw [List.flatMap_cons, rowSum_append, List.map_cons, List.sum_cons, ih]

theorem rhsSum_flatMap {K : Type} [Field K] {β : Type} (l : List β)
    (g : β → List (ℕ × K)) (i : ℕ) :
    rhsSum (l.flatMap g) i = (l.map (fun e => rhsSum (g e) i)).sum := by
  induction l with
  | nil => simp [rhsSum]
  | cons e rest ih => rw [List.flatMap_cons, rhsSum_append, List.map_cons, List.sum_cons, ih]

theorem amatFold_shift {K : Type} [Field K] :
    ∀ (L : List (ℕ × ℕ × K)) (a : K) (i j : ℕ),
    L.foldl (fun acc t => if t.1 = i ∧ t.2.1 = j then acc + t.2.2 else acc) a
      = a + L.foldl (fun acc t => if t.1 = i ∧ t.2.1 = j then acc + t.2.2 else acc) 0 := by
  intro L
  induction L with
  | nil => intro a i j; simp
  | cons t rest ih =>
    intro a i j
    by_cases h : t.1 = i ∧ t.2.1 = j
    · simp only [List.foldl_cons, if_pos h]
      rw [ih (a + t.2.2), ih (0 + t.2.2)]
      ring
    · simp only [List.foldl_cons, if_neg h]
      exact ih a i j

theorem sum_foldl_triples {K : Type} [Field K] :
    ∀ (L : List (ℕ × ℕ × K)) (d : ℕ) (x : ℕ → K) (i : ℕ),
    (∀ t ∈ L, t.2.1 < d) →
    (∑ j ∈ Finset.range d,
      (L.foldl (fun acc t => if t.1 = i ∧ t.2.1 = j then acc + t.2.2 else acc) 0) * x j)
      = rowSum L i x := by
  intro L
  induction L with
  | nil => intro d x i _; simp [rowSum]
  | cons t rest ih =>
    intro d x i hcol
    have hshift : ∀ j, (t :: rest).foldl
        (fun acc t' => if t'.1 = i ∧ t'.2.1 = j then acc + t'.2.2 else acc) 0
        = (if t.1 = i ∧ t.2.1 = j then t.2.2 else 0)
          + rest.foldl (fun acc t' => if t'.1 = i ∧ t'.2.1 = j then acc + t'.2.2 else acc) 0 := by
      intro j
      rw [List.foldl_cons, amatFold_shift]
      by_cases h : t.1 = i ∧ t.2.1 = j <;> simp [h]
    simp only [hshift, add_mul, Finset.sum_add_distrib]
    rw [ih d x i (fun t' ht' => hcol t' (List.mem_cons_of_mem _ ht')), rowSum_cons]
    congr 1
    have hmem : t.2.1 ∈ Finset.range d :=
      Finset.mem_range.mpr (hcol t (List.mem_cons_self _ _))
    have hconv : ∀ j ∈ Finset.range d,
        (if t.1 = i ∧ t.2.1 = j then t.2.2 else 0) * x j
          = if t.2.1 = j then (if t.1 = i then t.2.2 * x j else 0) else 0 := by
      intro j _
      by_cases h1 : t.1 = i <;> by_cases h2 : t.2.1 = j <;> simp [h1, h2]
    rw [Finset.sum_congr rfl hconv, Finset.sum_ite_eq]
    by_cases h : t.1 = i <;> simp [h, hmem]

/-! ## Branch/flat-element correspondence and well-formed indices -/

/-- The branch a flat element introduces (voltage sources only). -/
def vsBranch : Element → Option Branch
  | .VS p m _ => some (Branch.mk p m)
  | _ => none

theorem vsBranch_translatePrim (iname : String) (terms : List Node) (e : Element) :
    vsBranch (translatePrim iname terms e)
      = (vsBranch e).map (translateBranch iname terms) := by
  cases e <;> rfl

mutual
theorem subBranchList_eq_filterMap (c : SubCircuit) :
    subBranchList c = (flatElems c).filterMap vsBranch := by
  match c with
  | .mk t tns els =>
    rw [subBranchList, flatElems]
    exact walkBranches_eq_filterMap els

theorem walkBranches_eq_filterMap (els : List (String × Element)) :
    walkBranches els = (walkFlat els).filterMap vsBranch := by
  match els with
  | [] => rfl
  | (iname, .Sub s) :: rest =>
    rw [walkBranches, walkFlat, List.filterMap_append,
      walkBranches_eq_filterMap rest, subBranchList_eq_filterMap s]
    congr 1
    rw [List.map_filterMap, List.filterMap_map]
    congr 1
    funext e
    rw [Function.comp_apply, vsBranch_translatePrim]
  | (iname, .R p m pr) :: rest =>
    rw [walkBranches, walkFlat, List.filterMap_cons, walkBranches_eq_filterMap rest]
    · rfl
    all_goals intros
    all_goals contradiction
  | (iname, .C p m pr) :: rest =>
    rw [walkBranches, walkFlat, List.filterMap_cons, walkBranches_eq_filterMap rest]
    · rfl
    all_goals intros
    all_goals contradiction
  | (iname, .VS p m pr) :: rest =>
    rw [walkBranches, walkFlat, List.filterMap_cons, walkBranches_eq_filterMap rest]
    · rfl
    all_goals intros
    all_goals contradiction
  | (iname, .IS p m pr) :: rest =>
    rw [walkBranches, walkFlat, List.filterMap_cons, walkBranches_eq_filterMap rest]
    · rfl
    all_goals intros
    all_goals contradiction
end

theorem nodeIdx_lt (c : SubCircuit) (p : Node) (i : ℕ) (h : nodeIdx c p = some i) :
    i < (nonGroundNodes c).length :=
  idxOf_lt_length _ _ _ h

theorem branchIdx_ge (c : SubCircuit) (b : Branch) (k : ℕ) (h : branchIdx c b = some k) :
    (nonGroundNodes c).length ≤ k := by
  rw [branchIdx] at h
  obtain ⟨pos, _, hk⟩ := Option.map_eq_some'.mp h
  omega

theorem branchIdx_lt (c : SubCircuit) (b : Branch) (k : ℕ) (h : branchIdx c b = some k) :
    k < sysDim c := by
  rw [branchIdx] at h
  obtain ⟨pos, hpos, hk⟩ := Option.map_eq_some'.mp h
  have := idxOf_lt_length _ _ _ hpos
  rw [sysDim]
  omega

theorem stampA_col_lt {K : Type} [Field K] (c : SubCircuit) (env : String → K) (s : K)
    (e : Element) :
    ∀ t ∈ stampA (nodeIdx c) (branchIdx c) env s e, t.2.1 < sysDim c := by
  have hN : ∀ i, i < (nonGroundNodes c).length → i < sysDim c := by
    intro i h
    rw [sysDim]
    omega
  have hadm : ∀ (g : K) (p m : Node),
      ∀ t ∈ admTriples g (nodeIdx c p) (nodeIdx c m), t.2.1 < sysDim c := by
    intro g p m t ht
    rw [admTriples.eq_def] at ht
    rcases List.mem_append.mp ht with h | h
    · rcases List.mem_append.mp h with h' | h'
      · match hp : nodeIdx c p with
        | some i =>
          rw [hp, List.mem_singleton] at h'
          subst h'
          exact hN i (nodeIdx_lt c p i hp)
        | none =>
          rw [hp] at h'
          exact absurd h' (List.not_mem_nil _)
      · match hm : nodeIdx c m with
        | some j =>
          rw [hm, List.mem_singleton] at h'
          subst h'
          exact hN j (nodeIdx_lt c m j hm)
        | none =>
          rw [hm] at h'
          exact absurd h' (List.not_mem_nil _)
    · match hp : nodeIdx c p, hm : nodeIdx c m with
      | some i, some j =>
        rw [hp, hm] at h
        rcases List.mem_cons.mp h with h' | h'
        · subst h'
          exact hN j (nodeIdx_lt c m j hm)
        · rw [List.mem_singleton] at h'
          subst h'
          exact hN i (nodeIdx_lt c p i hp)
      | some i, none => rw [hp, hm] at h; exact absurd h (List.not_mem_nil _)
      | none, some j => rw [hp, hm] at h; exact absurd h (List.not_mem_nil _)
      | none, none => rw [hp, hm] at h; exact absurd h (List.not_mem_nil _)
  cases e with
  | R p m r => exact hadm _ p m
  | C p m cc => exact hadm _ p m
  | VS p m v =>
    intro t ht
    rw [stampA] at ht
    match hb : branchIdx c (Branch.mk p m) with
    | some k =>
      rw [hb] at ht
      have hk := branchIdx_lt c _ k hb
      have ht2 : t ∈ vsTriples (nodeIdx c p) (nodeIdx c m) k := ht
      rw [vsTriples.eq_def] at ht2
      rcases List.mem_append.mp ht2 with h | h
      · match hp : nodeIdx c p with
        | some i =>
          rw [hp] at h
          rcases List.mem_cons.mp h with h' | h'
          · subst h'
            exact hk
          · rw [List.mem_singleton] at h'
            subst h'
            exact hN i (nodeIdx_lt c p i hp)
        | none =>
          rw [hp] at h
          exact absurd h (List.not_mem_nil _)
      · match hm : nodeIdx c m with
        | some j =>
          rw [hm] at h
          rcases List.mem_cons.mp h with h' | h'
          · subst h'
            exact hk
          · rw [List.mem_singleton] at h'
            subst h'
            exact hN j (nodeIdx_lt c m j hm)
        | none =>
          rw [hm] at h
          exact absurd h (List.not_mem_nil _)
    | none =>
      rw [hb] at ht
      exact absurd (show t ∈ ([] : List (ℕ × ℕ × K)) from ht) (List.not_mem_nil _)
  | IS p m i => intro t ht; simp [stampA] at ht
  | Sub s => intro t ht; simp [stampA] at ht

theorem allTriples_col_lt {K : Type} [Field K] (c : SubCircuit) (env : String → K) (s : K) :
    ∀ t ∈ allTriples c env s, t.2.1 < sysDim c := by
  intro t ht
  rw [allTriples] at ht
  obtain ⟨e, hmem, hte⟩ := List.mem_flatMap.mp ht
  exact stampA_col_lt c env s e t hte

theorem mnaHolds_iff_rows {K : Type} [Field K] (c : SubCircuit) (env : String → K)
    (s : K) (x : ℕ → K) :
    mnaHolds c env s x ↔
      ∀ i < sysDim c, rowSum (allTriples c env s) i x = rhsSum (allRhs c env) i := by
  rw [mnaHolds]
  refine forall_congr' fun i => forall_congr' fun hi => ?_
  rw [show (∑ j ∈ Finset.range (sysDim c), Amat c env s i j * x j)
      = rowSum (allTriples c env s) i x from
    sum_foldl_triples (allTriples c env s) (sysDim c) x i (allTriples_col_lt c env s)]
  rfl

/-! ## Node-keyed (KCL) reading of the assembled system -/

theorem rowSum_nil {K : Type} [Field K] (i : ℕ) (x : ℕ → K) :
    rowSum ([] : List (ℕ × ℕ × K)) i x = 0 := rfl

theorem rhsSum_nil {K : Type} [Field K] (i : ℕ) :
    rhsSum ([] : List (ℕ × K)) i = 0 := rfl

theorem gnd_not_mem_nonGroundNodes (c : SubCircuit) : gnd ∉ nonGroundNodes c := by
  intro h
  have := (List.mem_filter.mp h).2
  simp at this

theorem nodeIdx_gnd (c : SubCircuit) : nodeIdx c gnd = none :=
  idxOf_eq_none _ _ (gnd_not_mem_nonGroundNodes c)

theorem nodeVolt_eq {K : Type} [Field K] (c : SubCircuit) (x : ℕ → K) (p : Node) (i : ℕ)
    (h : nodeIdx c p = some i) : nodeVolt c x p = x i := by
  have hp : p ≠ gnd := by
    intro hc
    subst hc
    rw [nodeIdx_gnd] at h
    exact Option.noConfusion h
  rw [nodeVolt, if_neg hp, h]

theorem nodeVolt_none {K : Type} [Field K] (c : SubCircuit) (x : ℕ → K) (p : Node)
    (h : nodeIdx c p = none) : nodeVolt c x p = 0 := by
  by_cases hp : p = gnd
  · rw [nodeVolt, if_pos hp]
  · rw [nodeVolt, if_neg hp, h]

theorem branchCur_eq {K : Type} [Field K] (c : SubCircuit) (x : ℕ → K) (b : Branch) (k : ℕ)
    (h : branchIdx c b = some k) : branchCur c x b = x k := by
  rw [branchCur, h]

theorem branchCur_none {K : Type} [Field K] (c : SubCircuit) (x : ℕ → K) (b : Branch)
    (h : branchIdx c b = none) : branchCur c x b = 0 := by
  rw [branchCur, h]

theorem rowSum_admTriples {K : Type} [Field K] (c : SubCircuit) (x : ℕ → K) (g : K)
    (p q m : Node) (i : ℕ) (hm : nodeIdx c m = some i) :
    rowSum (admTriples g (nodeIdx c p) (nodeIdx c q)) i x
      = (if p = m then g * nodeVolt c x p - g * nodeVolt c x q else 0)
        + (if q = m then g * nodeVolt c x q - g * nodeVolt c x p else 0) := by
  have hiff : ∀ (p' : Node) (j : ℕ), nodeIdx c p' = some j → ((j = i) ↔ p' = m) := by
    intro p' j hj
    constructor
    · intro h
      subst h
      exact idxOf_inj _ _ _ _ hj hm
    · intro h
      subst h
      rw [hm] at hj
      exact (Option.some.inj hj).symm
  have hne : ∀ (p' : Node), nodeIdx c p' = none → p' ≠ m := by
    intro p' hp' hc
    subst hc
    rw [hm] at hp'
    exact Option.noConfusion hp'
  match hp : nodeIdx c p, hq : nodeIdx c q with
  | some ip, some iq =>
    have e1 := nodeVolt_eq c x p ip hp
    have e2 := nodeVolt_eq c x q iq hq
    rw [show admTriples g (some ip) (some iq)
        = [(ip, ip, g)] ++ [(iq, iq, g)] ++ [(ip, iq, -g), (iq, ip, -g)] from rfl]
    simp only [rowSum_append, rowSum_cons, rowSum_nil]
    simp only [hiff p ip hp, hiff q iq hq, e1, e2]
    by_cases hpm : p = m <;> by_cases hqm : q = m <;> simp [hpm, hqm] <;> ring
  | some ip, none =>
    have e1 := nodeVolt_eq c x p ip hp
    have e2 := nodeVolt_none c x q hq
    have hqm := hne q hq
    rw [show admTriples g (some ip) (none : Option ℕ) = [(ip, ip, g)] ++ [] ++ [] from rfl,
      List.append_nil, List.append_nil]
    simp only [rowSum_cons, rowSum_nil]
    simp only [hiff p ip hp, e1, e2]
    by_cases hpm : p = m <;> simp [hpm, hqm] <;> ring
  | none, some iq =>
    have e1 := nodeVolt_none c x p hp
    have e2 := nodeVolt_eq c x q iq hq
    have hpm := hne p hp
    rw [show admTriples g (none : Option ℕ) (some iq) = [] ++ [(iq, iq, g)] ++ [] from rfl,
      List.nil_append, List.append_nil]
    simp only [rowSum_cons, rowSum_nil]
    simp only [hiff q iq hq, e1, e2]
    by_cases hqm : q = m <;> simp [hpm, hqm] <;> ring
  | none, none =>
    have hpm := hne p hp
    have hqm := hne q hq
    rw [show admTriples g (none : Option ℕ) (none : Option ℕ) = [] from rfl]
    simp [rowSum_nil, hpm, hqm]

theorem elemRow_eq {K : Type} [Field K] (c : SubCircuit) (env : String → K) (s : K)
    (x : ℕ → K) (e : Element) (m : Node) (i : ℕ) (hm : nodeIdx c m = some i) :
    rowSum (stampA (nodeIdx c) (branchIdx c) env s e) i x
      - rhsSum (stampB (nodeIdx c) (branchIdx c) env e) i
      = elemCurrentInto env s (nodeVolt c x) (branchCur c x) e m := by
  have hiff : ∀ (p' : Node) (j : ℕ), nodeIdx c p' = some j → ((j = i) ↔ p' = m) := by
    intro p' j hj
    constructor
    · intro h
      subst h
      exact idxOf_inj _ _ _ _ hj hm
    · intro h
      subst h
      rw [hm] at hj
      exact (Option.some.inj hj).symm
  have hne : ∀ (p' : Node), nodeIdx c p' = none → p' ≠ m := by
    intro p' hp' hc
    subst hc
    rw [hm] at hp'
    exact Option.noConfusion hp'
  have hiN : i < (nonGroundNodes c).length := nodeIdx_lt c m i hm
  cases e with
  | R p q r =>
    rw [stampA, stampB, rhsSum_nil, sub_zero,
      rowSum_admTriples c x _ p q m i hm, elemCurrentInto]
    by_cases hpm : p = m <;> by_cases hqm : q = m <;>
      simp [hpm, hqm, div_eq_mul_inv] <;> ring
    all_goals intros
    all_goals contradiction
  | C p q cc =>
    rw [stampA, stampB, rhsSum_nil, sub_zero,
      rowSum_admTriples c x _ p q m i hm, elemCurrentInto]
    by_cases hpm : p = m <;> by_cases hqm : q = m <;>
      simp [hpm, hqm] <;> ring
    all_goals intros
    all_goals contradiction
  | IS p q iv =>
    rw [stampA, stampB, rowSum_nil, elemCurrentInto]
    match hp : nodeIdx c p, hq : nodeIdx c q with
    | some ip, some iq =>
      rw [show ((match some ip with
            | some ip => [(ip, -(SymExpr.eval env iv))]
            | none => []) ++
          (match some iq with
            | some im => [(im, SymExpr.eval env iv)]
            | none => []) : List (ℕ × K))
          = [(ip, -(SymExpr.eval env iv)), (iq, SymExpr.eval env iv)] from rfl]
      simp only [rhsSum_cons, rhsSum_nil]
      simp only [hiff p ip hp, hiff q iq hq]
      by_cases hpm : p = m <;> by_cases hqm : q = m <;> simp [hpm, hqm] <;> ring
    | some ip, none =>
      have hqm := hne q hq
      rw [show ((match some ip with
            | some ip => [(ip, -(SymExpr.eval env iv))]
            | none => []) ++
          (match (none : Option ℕ) with
            | some im => [(im, SymExpr.eval env iv)]
            | none => []) : List (ℕ × K))
          = [(ip, -(SymExpr.eval env iv))] from rfl]
      simp only [rhsSum_cons, rhsSum_nil]
      simp only [hiff p ip hp]
      by_cases hpm : p = m <;> simp [hpm, hqm] <;> ring
    | none, some iq =>
      have hpm := hne p hp
      rw [show ((match (none : Option ℕ) with
            | some ip => [(ip, -(SymExpr.eval env iv))]
            | none => []) ++
          (match some iq with
            | some im => [(im, SymExpr.eval env iv)]
            | none => []) : List (ℕ × K))
          = [(iq, SymExpr.eval env iv)] from rfl]
      simp only [rhsSum_cons, rhsSum_nil]
      simp only [hiff q iq hq]
      by_cases hqm : q = m <;> simp [hpm, hqm] <;> ring
    | none, none =>
      have hpm := hne p hp
      have hqm := hne q hq
      rw [show ((match (none : Option ℕ) with
            | some ip => [(ip, -(SymExpr.eval env iv))]
            | none => []) ++
          (match (none : Option ℕ) with
            | some im => [(im, SymExpr.eval env iv)]
            | none => []) : List (ℕ × K))
          = [] from rfl]
      simp [rhsSum_nil, hpm, hqm]
  | VS p q vv =>
    rw [stampA, stampB, elemCurrentInto]
    match hb : branchIdx c (Branch.mk p q) with
    | some k =>
      have hkge := branchIdx_ge c _ k hb
      have hki : k ≠ i := by omega
      have hcur := branchCur_eq c x _ k hb
      rw [hcur]
      match hp : nodeIdx c p, hq : nodeIdx c q with
      | some ip, some iq =>
        show rowSum (vsTriples (some ip) (some iq) k) i x
            - rhsSum [(k, SymExpr.eval env vv)] i
            = (if p = m then x k else 0) + if q = m then -x k else 0
        rw [show vsTriples (some ip) (some iq) k
            = [(ip, k, (1:K)), (k, ip, 1)] ++ [(iq, k, -1), (k, iq, -1)] from rfl]
        simp only [rowSum_append, rowSum_cons, rowSum_nil, rhsSum_cons, rhsSum_nil]
        simp only [hiff p ip hp, hiff q iq hq, if_neg hki]
        by_cases hpm : p = m <;> by_cases hqm : q = m <;> simp [hpm, hqm, hki] <;> ring
      | some ip, none =>
        have hqm := hne q hq
        show rowSum (vsTriples (some ip) (none : Option ℕ) k) i x
            - rhsSum [(k, SymExpr.eval env vv)] i
            = (if p = m then x k else 0) + if q = m then -x k else 0
        rw [show vsTriples (some ip) (none : Option ℕ) k
            = [(ip, k, (1:K)), (k, ip, 1)] ++ [] from rfl, List.append_nil]
        simp only [rowSum_cons, rowSum_nil, rhsSum_cons, rhsSum_nil]
        simp only [hiff p ip hp, if_neg hki]
        by_cases hpm : p = m <;> simp [hpm, hqm, hki] <;> ring
      | none, some iq =>
        have hpm := hne p hp
        show rowSum (vsTriples (none : Option ℕ) (some iq) k) i x
            - rhsSum [(k, SymExpr.eval env vv)] i
            = (if p = m then x k else 0) + if q = m then -x k else 0
        rw [show vsTriples (none : Option ℕ) (some iq) k
            = [] ++ [(iq, k, (-1:K)), (k, iq, -1)] from rfl, List.nil_append]
        simp only [rowSum_cons, rowSum_nil, rhsSum_cons, rhsSum_nil]
        simp only [hiff q iq hq, if_neg hki]
        by_cases hqm : q = m <;> simp [hpm, hqm, hki] <;> ring
      | none, none =>
        have hpm := hne p hp
        have hqm := hne q hq
        show rowSum (vsTriples (none : Option ℕ) (none : Option ℕ) k) i x
            - rhsSum [(k, SymExpr.eval env vv)] i
            = (if p = m then x k else 0) + if q = m then -x k else 0
        rw [show vsTriples (none : Option ℕ) (none : Option ℕ) k = [] from rfl]
        simp [rowSum_nil, rhsSum_cons, rhsSum_nil, hpm, hqm, hki]
    | none =>
      have hcur := branchCur_none c x (Branch.mk p q) hb
      rw [hcur]
      simp [rowSum_nil, rhsSum_nil]
  | Sub sc =>
    rw [stampA, stampB, elemCurrentInto, rowSum_nil, rhsSum_nil]
    · ring
    all_goals intros
    all_goals contradiction

/-- Total current drawn from node `m` by a list of (flattened) elements. -/
def kclNode {K : Type} [Field K] (env : String → K) (s : K) (φ : Node → K)
    (ψ : Branch → K) (els : List Element) (m : Node) : K :=
  (els.map (fun e => elemCurrentInto env s φ ψ e m)).sum

/-- The node-keyed reading of the MNA system: Kirchhoff current law at every
non-ground node, and the voltage constraint of every flattened source. -/
def kclHolds {K : Type} [Field K] (c : SubCircuit) (env : String → K) (s : K)
    (x : ℕ → K) : Prop :=
  (∀ m ∈ nonGroundNodes c,
    kclNode env s (nodeVolt c x) (branchCur c x) (flatElems c) m = 0) ∧
  (∀ p q v, Element.VS p q v ∈ flatElems c →
    nodeVolt c x p - nodeVolt c x q = SymExpr.eval env v)

theorem sum_map_sub {K : Type} [Field K] {β : Type} (l : List β) (f g : β → K) :
    (l.map f).sum - (l.map g).sum = (l.map (fun e => f e - g e)).sum := by
  induction l with
  | nil => simp
  | cons e rest ih =>
    simp only [List.map_cons, List.sum_cons]
    rw [← ih]
    ring

theorem row_node_eq_kcl {K : Type} [Field K] (c : SubCircuit) (env : String → K)
    (s : K) (x : ℕ → K) (m : Node) (i : ℕ) (hm : nodeIdx c m = some i) :
    rowSum (allTriples c env s) i x - rhsSum (allRhs c env) i
      = kclNode env s (nodeVolt c x) (branchCur c x) (flatElems c) m := by
  rw [allTriples, allRhs, rowSum_flatMap, rhsSum_flatMap, kclNode, sum_map_sub]
  congr 1
  exact List.map_congr_left (fun e _ => elemRow_eq c env s x e m i hm)

theorem row_other_zero {K : Type} [Field K] (c : SubCircuit) (env : String → K)
    (s : K) (x : ℕ → K) (e : Element) (k : ℕ)
    (hkge : (nonGroundNodes c).length ≤ k)
    (hvs : ∀ p q v, e = Element.VS p q v → branchIdx c (Branch.mk p q) ≠ some k) :
    rowSum (stampA (nodeIdx c) (branchIdx c) env s e) k x = 0 ∧
    rhsSum (stampB (nodeIdx c) (branchIdx c) env e) k = 0 := by
  have hnode : ∀ (p : Node) (j : ℕ), nodeIdx c p = some j → j ≠ k := by
    intro p j hj
    have := nodeIdx_lt c p j hj
    omega
  cases e with
  | R p q r =>
    refine ⟨?_, rfl⟩
    match hp : nodeIdx c p, hq : nodeIdx c q with
    | some ip, some iq =>
      rw [stampA, hp, hq,
        show admTriples ((SymExpr.eval env r)⁻¹) (some ip) (some iq)
          = [(ip, ip, (SymExpr.eval env r)⁻¹)] ++ [(iq, iq, (SymExpr.eval env r)⁻¹)]
            ++ [(ip, iq, -(SymExpr.eval env r)⁻¹), (iq, ip, -(SymExpr.eval env r)⁻¹)] from rfl]
      simp [rowSum_append, rowSum_cons, rowSum_nil, hnode p ip hp, hnode q iq hq]
    | some ip, none =>
      rw [stampA, hp, hq,
        show admTriples ((SymExpr.eval env r)⁻¹) (some ip) (none : Option ℕ)
          = [(ip, ip, (SymExpr.eval env r)⁻¹)] from rfl]
      simp [rowSum_cons, rowSum_nil, hnode p ip hp]
    | none, some iq =>
      rw [stampA, hp, hq,
        show admTriples ((SymExpr.eval env r)⁻¹) (none : Option ℕ) (some iq)
          = [(iq, iq, (SymExpr.eval env r)⁻¹)] from rfl]
      simp [rowSum_cons, rowSum_nil, hnode q iq hq]
    | none, none =>
      rw [stampA, hp, hq,
        show admTriples ((SymExpr.eval env r)⁻¹) (none : Option ℕ) (none : Option ℕ)
          = [] from rfl]
      rfl
  | C p q cc =>
    refine ⟨?_, rfl⟩
    match hp : nodeIdx c p, hq : nodeIdx c q with
    | some ip, some iq =>
      rw [stampA, hp, hq,
        show admTriples (s * SymExpr.eval env cc) (some ip) (some iq)
          = [(ip, ip, s * SymExpr.eval env cc)] ++ [(iq, iq, s * SymExpr.eval env cc)]
            ++ [(ip, iq, -(s * SymExpr.eval env cc)), (iq, ip, -(s * SymExpr.eval env cc))] from rfl]
      simp [rowSum_append, rowSum_cons, rowSum_nil, hnode p ip hp, hnode q iq hq]
    | some ip, none =>
      rw [stampA, hp, hq,
        show admTriples (s * SymExpr.eval env cc) (some ip) (none : Option ℕ)
          = [(ip, ip, s * SymExpr.eval env cc)] from rfl]
      simp [rowSum_cons, rowSum_nil, hnode p ip hp]
    | none, some iq =>
      rw [stampA, hp, hq,
        show admTriples (s * SymExpr.eval env cc) (none : Option ℕ) (some iq)
          = [(iq, iq, s * SymExpr.eval env cc)] from rfl]
      simp [rowSum_cons, rowSum_nil, hnode q iq hq]
    | none, none =>
      rw [stampA, hp, hq,
        show admTriples (s * SymExpr.eval env cc) (none : Option ℕ) (none : Option ℕ)
          = [] from rfl]
      rfl
  | IS p q iv =>
    refine ⟨rfl, ?_⟩
    match hp : nodeIdx c p, hq : nodeIdx c q with
    | some ip, some iq =>
      rw [stampB, hp, hq,
        show ((match (some ip : Option ℕ) with
            | some ip => [(ip, -(SymExpr.eval env iv))]
            | none => []) ++
          (match (some iq : Option ℕ) with
            | some im => [(im, SymExpr.eval env iv)]
            | none => []) : List (ℕ × K))
          = [(ip, -(SymExpr.eval env iv)), (iq, SymExpr.eval env iv)] from rfl]
      simp [rhsSum_cons, rhsSum_nil, hnode p ip hp, hnode q iq hq]
    | some ip, none =>
      rw [stampB, hp, hq,
        show ((match (some ip : Option ℕ) with
            | some ip => [(ip, -(SymExpr.eval env iv))]
            | none => []) ++
          (match (none : Option ℕ) with
            | some im => [(im, SymExpr.eval env iv)]
            | none => []) : List (ℕ × K))
          = [(ip, -(SymExpr.eval env iv))] from rfl]
      simp [rhsSum_cons, rhsSum_nil, hnode p ip hp]
    | none, some iq =>
      rw [stampB, hp, hq,
        show ((match (none : Option ℕ) with
            | some ip => [(ip, -(SymExpr.eval env iv))]
            | none => []) ++
          (match (some iq : Option ℕ) with
            | some im => [(im, SymExpr.eval env iv)]
            | none => []) : List (ℕ × K))
          = [(iq, SymExpr.eval env iv)] from rfl]
      simp [rhsSum_cons, rhsSum_nil, hnode q iq hq]
    | none, none =>
      rw [stampB, hp, hq,
        show ((match (none : Option ℕ) with
            | some ip => [(ip, -(SymExpr.eval env iv))]
            | none => []) ++
          (match (none : Option ℕ) with
            | some im => [(im, SymExpr.eval env iv)]
            | none => []) : List (ℕ × K))
          = [] from rfl]
      rfl
  | VS p q vv =>
    match hb : branchIdx c (Branch.mk p q) with
    | some k' =>
      have hk' : k' ≠ k := fun hc => hvs p q vv rfl (hc ▸ hb)
      constructor
      · rw [stampA, hb]
        match hp : nodeIdx c p, hq : nodeIdx c q with
        | some ip, some iq =>
          show rowSum (vsTriples (some ip) (some iq) k') k x = 0
          rw [show vsTriples (some ip) (some iq) k'
              = [(ip, k', (1:K)), (k', ip, 1)] ++ [(iq, k', -1), (k', iq, -1)] from rfl]
          simp [rowSum_append, rowSum_cons, rowSum_nil,
            hnode p ip hp, hnode q iq hq, hk']
        | some ip, none =>
          show rowSum (vsTriples (some ip) (none : Option ℕ) k') k x = 0
          rw [show vsTriples (some ip) (none : Option ℕ) k'
              = [(ip, k', (1:K)), (k', ip, 1)] ++ [] from rfl, List.append_nil]
          simp [rowSum_cons, rowSum_nil, hnode p ip hp, hk']
        | none, some iq =>
          show rowSum (vsTriples (none : Option ℕ) (some iq) k') k x = 0
          rw [show vsTriples (none : Option ℕ) (some iq) k'
              = [] ++ [(iq, k', (-1:K)), (k', iq, -1)] from rfl, List.nil_append]
          simp [rowSum_cons, rowSum_nil, hnode q iq hq, hk']
        | none, none =>
          show rowSum (vsTriples (none : Option ℕ) (none : Option ℕ) k') k x = 0
          rfl
      · rw [stampB, hb]
        show rhsSum [(k', SymExpr.eval env vv)] k = 0
        simp [rhsSum_cons, rhsSum_nil, hk']
    | none =>
      constructor
      · rw [stampA, hb]
        rfl
      · rw [stampB, hb]
        rfl
  | Sub sc => exact ⟨rfl, rfl⟩

theorem row_vs_own {K : Type} [Field K] (c : SubCircuit) (env : String → K) (s : K)
    (x : ℕ → K) (p q : Node) (v : SymExpr) (k : ℕ)
    (hb : branchIdx c (Branch.mk p q) = some k) :
    rowSum (stampA (nodeIdx c) (branchIdx c) env s (.VS p q v)) k x
      = nodeVolt c x p - nodeVolt c x q ∧
    rhsSum (stampB (nodeIdx c) (branchIdx c) env (.VS p q v)) k
      = SymExpr.eval env v := by
  have hkge := branchIdx_ge c _ k hb
  have hnode : ∀ (p' : Node) (j : ℕ), nodeIdx c p' = some j → j ≠ k := by
    intro p' j hj
    have := nodeIdx_lt c p' j hj
    omega
  constructor
  · rw [stampA, hb]
    match hp : nodeIdx c p, hq : nodeIdx c q with
    | some ip, some iq =>
      show rowSum (vsTriples (some ip) (some iq) k) k x = _
      rw [show vsTriples (some ip) (some iq) k
          = [(ip, k, (1:K)), (k, ip, 1)] ++ [(iq, k, -1), (k, iq, -1)] from rfl,
        nodeVolt_eq c x p ip hp, nodeVolt_eq c x q iq hq]
      simp [rowSum_append, rowSum_cons, rowSum_nil, hnode p ip hp, hnode q iq hq]
      ring
    | some ip, none =>
      show rowSum (vsTriples (some ip) (none : Option ℕ) k) k x = _
      rw [show vsTriples (some ip) (none : Option ℕ) k
          = [(ip, k, (1:K)), (k, ip, 1)] ++ [] from rfl, List.append_nil,
        nodeVolt_eq c x p ip hp, nodeVolt_none c x q hq]
      simp [rowSum_cons, rowSum_nil, hnode p ip hp]
    | none, some iq =>
      show rowSum (vsTriples (none : Option ℕ) (some iq) k) k x = _
      rw [show vsTriples (none : Option ℕ) (some iq) k
          = [] ++ [(iq, k, (-1:K)), (k, iq, -1)] from rfl, List.nil_append,
        nodeVolt_none c x p hp, nodeVolt_eq c x q iq hq]
      simp [rowSum_cons, rowSum_nil, hnode q iq hq]
    | none, none =>
      show rowSum (vsTriples (none : Option ℕ) (none : Option ℕ) k) k x = _
      rw [nodeVolt_none c x p hp, nodeVolt_none c x q hq]
      show (0:K) = 0 - 0
      ring
  · rw [stampB, hb]
    show rhsSum [(k, SymExpr.eval env v)] k = _
    simp [rhsSum_cons, rhsSum_nil]

theorem row_branch_eq {K : Type} [Field K] (c : SubCircuit) (env : String → K) (s : K)
    (x : ℕ → K) (p q : Node) (v : SymExpr) (k : ℕ)
    (hnd : (subBranchList c).Nodup)
    (hvs : Element.VS p q v ∈ flatElems c)
    (hb : branchIdx c (Branch.mk p q) = some k) :
    rowSum (allTriples c env s) k x = nodeVolt c x p - nodeVolt c x q ∧
    rhsSum (allRhs c env) k = SymExpr.eval env v := by
  have hkge := branchIdx_ge c _ k hb
  obtain ⟨F1, F2, hF⟩ := List.append_of_mem hvs
  have hBnd : ((F1.filterMap vsBranch) ++ (Branch.mk p q)
      :: (F2.filterMap vsBranch)).Nodup := by
    have : subBranchList c = (F1.filterMap vsBranch)
        ++ (Branch.mk p q) :: (F2.filterMap vsBranch) := by
      rw [subBranchList_eq_filterMap, hF, List.filterMap_append, List.filterMap_cons]
      rfl
    rwa [this] at hnd
  have hother : ∀ e ∈ F1 ++ F2, ∀ p' q' v', e = Element.VS p' q' v' →
      branchIdx c (Branch.mk p' q') ≠ some k := by
    intro e hmem p' q' v' he hbk
    subst he
    have heq : Branch.mk p' q' = Branch.mk p q := by
      rw [branchIdx] at hb hbk
      obtain ⟨pos, hpos, hk⟩ := Option.map_eq_some'.mp hb
      obtain ⟨pos', hpos', hk'⟩ := Option.map_eq_some'.mp hbk
      have : pos' = pos := by omega
      subst this
      exact idxOf_inj _ _ _ _ hpos' hpos
    have hmem' : Branch.mk p q ∈ (F1.filterMap vsBranch) ++ (F2.filterMap vsBranch) := by
      rcases List.mem_append.mp hmem with h | h
      · exact List.mem_append.mpr (Or.inl
          (List.mem_filterMap.mpr ⟨_, h, by rw [vsBranch, heq]⟩))
      · exact List.mem_append.mpr (Or.inr
          (List.mem_filterMap.mpr ⟨_, h, by rw [vsBranch, heq]⟩))
    rcases List.mem_append.mp hmem' with h | h
    · have hdisj := List.disjoint_of_nodup_append hBnd
      exact hdisj h (List.mem_cons_self _ _)
    · have := (List.nodup_append.mp hBnd).2.1
      exact (List.nodup_cons.mp this).1 h
  have hz1 : ∀ e ∈ F1,
      rowSum (stampA (nodeIdx c) (branchIdx c) env s e) k x = 0 ∧
      rhsSum (stampB (nodeIdx c) (branchIdx c) env e) k = 0 := by
    intro e he
    exact row_other_zero c env s x e k hkge
      (fun p' q' v' h => hother e (List.mem_append.mpr (Or.inl he)) p' q' v' h)
  have hz2 : ∀ e ∈ F2,
      rowSum (stampA (nodeIdx c) (branchIdx c) env s e) k x = 0 ∧
      rhsSum (stampB (nodeIdx c) (branchIdx c) env e) k = 0 := by
    intro e he
    exact row_other_zero c env s x e k hkge
      (fun p' q' v' h => hother e (List.mem_append.mpr (Or.inr he)) p' q' v' h)
  have hown := row_vs_own c env s x p q v k hb
  constructor
  · rw [allTriples, hF, rowSum_flatMap, List.map_append, List.map_cons,
      List.sum_append, List.sum_cons]
    rw [List.sum_eq_zero (fun y hy => by
        obtain ⟨e, he, rfl⟩ := List.mem_map.mp hy
        exact (hz1 e he).1),
      List.sum_eq_zero (fun y hy => by
        obtain ⟨e, he, rfl⟩ := List.mem_map.mp hy
        exact (hz2 e he).1),
      hown.1]
    ring
  · rw [allRhs, hF, rhsSum_flatMap, List.map_append, List.map_cons,
      List.sum_append, List.sum_cons]
    rw [List.sum_eq_zero (fun y hy => by
        obtain ⟨e, he, rfl⟩ := List.mem_map.mp hy
        exact (hz1 e he).2),
      List.sum_eq_zero (fun y hy => by
        obtain ⟨e, he, rfl⟩ := List.mem_map.mp hy
        exact (hz2 e he).2),
      hown.2]
    ring

theorem nonGroundNodes_nodup (c : SubCircuit) : (nonGroundNodes c).Nodup :=
  (subNodeList_nodup c).filter _

theorem mnaHolds_iff_kclHolds {K : Type} [Field K] (c : SubCircuit) (env : String → K)
    (s : K) (x : ℕ → K) (hnd : (subBranchList c).Nodup) :
    mnaHolds c env s x ↔ kclHolds c env s x := by
  rw [mnaHolds_iff_rows, kclHolds]
  constructor
  · intro hrows
    constructor
    · intro m hmem
      obtain ⟨i, hi⟩ := idxOf_mem _ _ hmem
      have hiN := idxOf_lt_length _ _ _ hi
      have hid : i < sysDim c := by rw [sysDim]; omega
      have h1 := hrows i hid
      have h2 := row_node_eq_kcl c env s x m i hi
      rw [h1, sub_self] at h2
      exact h2.symm
    · intro p q v hvs
      have hbr : Branch.mk p q ∈ subBranchList c := by
        rw [subBranchList_eq_filterMap]
        exact List.mem_filterMap.mpr ⟨_, hvs, rfl⟩
      obtain ⟨pos, hpos⟩ := idxOf_mem _ _ hbr
      have hk : branchIdx c (Branch.mk p q) = some (pos + (nonGroundNodes c).length) := by
        rw [branchIdx, hpos]
        rfl
      have hkd : pos + (nonGroundNodes c).length < sysDim c := branchIdx_lt c _ _ hk
      have hrow := hrows _ hkd
      have hbe := row_branch_eq c env s x p q v _ hnd hvs hk
      rw [hbe.1, hbe.2] at hrow
      exact hrow
  · intro hkcl
    intro i hid
    by_cases hiN : i < (nonGroundNodes c).length
    · have hm : (nonGroundNodes c)[i]? = some ((nonGroundNodes c).get ⟨i, hiN⟩) := by
        simp [List.getElem?_eq_getElem hiN]
      have hidx : nodeIdx c ((nonGroundNodes c).get ⟨i, hiN⟩) = some i :=
        getElem_idxOf _ _ _ (nonGroundNodes_nodup c) hm
      have hmem : (nonGroundNodes c).get ⟨i, hiN⟩ ∈ nonGroundNodes c :=
        List.get_mem _ _ hiN
      have h2 := row_node_eq_kcl c env s x ((nonGroundNodes c).get ⟨i, hiN⟩) i hidx
      rw [hkcl.1 _ hmem] at h2
      have := sub_eq_zero.mp h2
      exact this
    · have hpos : i - (nonGroundNodes c).length < (subBranchList c).length := by
        rw [sysDim] at hid
        omega
      set pos := i - (nonGroundNodes c).length with hposdef
      have hb : (subBranchList c)[pos]? = some ((subBranchList c).get ⟨pos, hpos⟩) := by
        simp [List.getElem?_eq_getElem hpos]
      have hbmem : (subBranchList c).get ⟨pos, hpos⟩ ∈ subBranchList c :=
        List.get_mem _ _ hpos
      obtain ⟨e, hemem, hve⟩ := List.mem_filterMap.mp
        (by rw [← subBranchList_eq_filterMap]; exact hbmem)
      obtain ⟨p, q, v, rfl⟩ : ∃ p q v, e = Element.VS p q v := by
        cases e with
        | VS p q v => exact ⟨p, q, v, rfl⟩
        | R p q r =>
          rw [show vsBranch (Element.R p q r) = none from rfl] at hve
          exact Option.noConfusion hve
        | C p q cc =>
          rw [show vsBranch (Element.C p q cc) = none from rfl] at hve
          exact Option.noConfusion hve
        | IS p q iv =>
          rw [show vsBranch (Element.IS p q iv) = none from rfl] at hve
          exact Option.noConfusion hve
        | Sub sc =>
          rw [show vsBranch (Element.Sub sc) = none from rfl] at hve
          exact Option.noConfusion hve
      have hbeq : Branch.mk p q = (subBranchList c).get ⟨pos, hpos⟩ :=
        Option.some.inj hve
      have hk : branchIdx c (Branch.mk p q) = some i := by
        rw [branchIdx, hbeq, getElem_idxOf _ _ _ hnd hb]
        simp only [Option.map_some']
        congr 1
        omega
      have hbe := row_branch_eq c env s x p q v i hnd hemem hk
      rw [hbe.1, hbe.2]
      exact hkcl.2 p q v hemem

/-! ## Probe frame theorem: substitution and agreement toolkit -/

/-- Substitute one node for another in a primitive element. -/
def substPrim (old new : Node) : Element → Element :=
  mapElemNodes (fun q => if q = old then new else q)

theorem walkFlat_append :
    ∀ (l1 l2 : List (String × Element)), walkFlat (l1 ++ l2) = walkFlat l1 ++ walkFlat l2 := by
  intro l1
  induction l1 with
  | nil => intro l2; rfl
  | cons kv rest ih =>
    intro l2
    obtain ⟨iname, e⟩ := kv
    cases e <;> simp [walkFlat, ih, List.append_assoc]

mutual
theorem flat_nodes_sub (c : SubCircuit) :
    ∀ f ∈ flatElems c, ∀ p ∈ elemRawNodes f, p ∈ subNodeList c := by
  match c with
  | .mk t tns els =>
    intro f hf p hp
    rw [flatElems] at hf
    rw [subNodeList, mem_dedupKF, List.mem_append]
    exact Or.inr (walkFlat_nodes_sub els f hf p hp)

theorem walkFlat_nodes_sub (els : List (String × Element)) :
    ∀ f ∈ walkFlat els, ∀ p ∈ elemRawNodes f, p ∈ walkNodes els := by
  match els with
  | [] => intro f hf; rw [walkFlat] at hf; exact absurd hf (List.not_mem_nil _)
  | (iname, .Sub s) :: rest =>
    intro f hf p hp
    rw [walkFlat] at hf
    rw [walkNodes, List.mem_append]
    rcases List.mem_append.mp hf with h | h
    · obtain ⟨f0, hf0, rfl⟩ := List.mem_map.mp h
      have hraw : elemRawNodes (translatePrim iname s.termNodes f0)
          = (elemRawNodes f0).map (translateNode iname s.termNodes) := by
        cases f0 <;> rfl
      rw [hraw] at hp
      obtain ⟨p0, hp0, rfl⟩ := List.mem_map.mp hp
      exact Or.inl (List.mem_map.mpr ⟨p0, flat_nodes_sub s f0 hf0 p0 hp0, rfl⟩)
    · exact Or.inr (walkFlat_nodes_sub rest f h p hp)
  | (iname, .R pp mm pr) :: rest =>
    intro f hf p hp
    rw [walkFlat] at hf
    rw [walkNodes, List.mem_append]
    rcases List.mem_cons.mp hf with h | h
    · subst h
      exact Or.inl hp
    · exact Or.inr (walkFlat_nodes_sub rest f h p hp)
    all_goals intros
    all_goals contradiction
  | (iname, .C pp mm pr) :: rest =>
    intro f hf p hp
    rw [walkFlat] at hf
    rw [walkNodes, List.mem_append]
    rcases List.mem_cons.mp hf with h | h
    · subst h
      exact Or.inl hp
    · exact Or.inr (walkFlat_nodes_sub rest f h p hp)
    all_goals intros
    all_goals contradiction
  | (iname, .VS pp mm pr) :: rest =>
    intro f hf p hp
    rw [walkFlat] at hf
    rw [walkNodes, List.mem_append]
    rcases List.mem_cons.mp hf with h | h
    · subst h
      exact Or.inl hp
    · exact Or.inr (walkFlat_nodes_sub rest f h p hp)
    all_goals intros
    all_goals contradiction
  | (iname, .IS pp mm pr) :: rest =>
    intro f hf p hp
    rw [walkFlat] at hf
    rw [walkNodes, List.mem_append]
    rcases List.mem_cons.mp hf with h | h
    · subst h
      exact Or.inl hp
    · exact Or.inr (walkFlat_nodes_sub rest f h p hp)
    all_goals intros
    all_goals contradiction
end

theorem currentInto_zero_of_not_mem {K : Type} [Field K] (env : String → K) (s : K)
    (φ : Node → K) (ψ : Branch → K) (f : Element) (m : Node)
    (h : m ∉ elemRawNodes f) :
    elemCurrentInto env s φ ψ f m = 0 := by
  cases f with
  | R p q r =>
    have hp : p ≠ m := fun hc => h (hc ▸ by simp [elemRawNodes])
    have hq : q ≠ m := fun hc => h (hc ▸ by simp [elemRawNodes])
    simp [elemCurrentInto, hp, hq]
  | C p q cc =>
    have hp : p ≠ m := fun hc => h (hc ▸ by simp [elemRawNodes])
    have hq : q ≠ m := fun hc => h (hc ▸ by simp [elemRawNodes])
    simp [elemCurrentInto, hp, hq]
  | VS p q v =>
    have hp : p ≠ m := fun hc => h (hc ▸ by simp [elemRawNodes])
    have hq : q ≠ m := fun hc => h (hc ▸ by simp [elemRawNodes])
    simp [elemCurrentInto, hp, hq]
  | IS p q iv =>
    have hp : p ≠ m := fun hc => h (hc ▸ by simp [elemRawNodes])
    have hq : q ≠ m := fun hc => h (hc ▸ by simp [elemRawNodes])
    simp [elemCurrentInto, hp, hq]
  | Sub sc => rfl

theorem currentInto_congr {K : Type} [Field K] (env : String → K) (s : K)
    (φ1 φ2 : Node → K) (ψ1 ψ2 : Branch → K) (f : Element) (m : Node)
    (hφ : ∀ p ∈ elemRawNodes f, φ1 p = φ2 p)
    (hψ : ∀ b, vsBranch f = some b → ψ1 b = ψ2 b) :
    elemCurrentInto env s φ1 ψ1 f m = elemCurrentInto env s φ2 ψ2 f m := by
  cases f with
  | R p q r =>
    have hp := hφ p (by simp [elemRawNodes])
    have hq := hφ q (by simp [elemRawNodes])
    simp only [elemCurrentInto, hp, hq]
  | C p q cc =>
    have hp := hφ p (by simp [elemRawNodes])
    have hq := hφ q (by simp [elemRawNodes])
    simp only [elemCurrentInto, hp, hq]
  | VS p q v =>
    have hb := hψ (Branch.mk p q) rfl
    simp only [elemCurrentInto, hb]
  | IS p q iv => rfl
  | Sub sc => rfl

theorem elemRawNodes_substPrim (old new : Node) (f : Element) :
    elemRawNodes (substPrim old new f)
      = (elemRawNodes f).map (fun q => if q = old then new else q) := by
  cases f <;> rfl

theorem vsBranch_substPrim_avoid (old new : Node) (f : Element)
    (hvs : ∀ p q v, f = Element.VS p q v → p ≠ old ∧ q ≠ old) :
    vsBranch (substPrim old new f) = vsBranch f := by
  cases f with
  | VS p q v =>
    obtain ⟨hp, hq⟩ := hvs p q v rfl
    simp [substPrim, mapElemNodes, vsBranch, hp, hq]
  | R p q r => rfl
  | C p q c => rfl
  | IS p q i => rfl
  | Sub s => rfl

theorem currentInto_subst_ne {K : Type} [Field K] (env : String → K) (s : K)
    (φ : Node → K) (ψ : Branch → K) (f : Element) (m old new : Node)
    (hmo : m ≠ old) (hmn : m ≠ new) (hφ : φ new = φ old)
    (hvs : ∀ p q v, f = Element.VS p q v → p ≠ old ∧ q ≠ old) :
    elemCurrentInto env s φ ψ (substPrim old new f) m
      = elemCurrentInto env s φ ψ f m := by
  have hcond : ∀ q' : Node, ((if q' = old then new else q') = m) ↔ (q' = m) := by
    intro q'
    by_cases h : q' = old
    · subst h
      simp only [if_pos rfl]
      constructor
      · intro hc; exact absurd hc.symm hmn
      · intro hc; exact absurd hc.symm hmo
    · rw [if_neg h]
  have hval : ∀ q' : Node, φ (if q' = old then new else q') = φ q' := by
    intro q'
    by_cases h : q' = old
    · subst h
      rw [if_pos rfl, hφ]
    · rw [if_neg h]
  cases f with
  | R p q r => simp only [substPrim, mapElemNodes, elemCurrentInto, hcond, hval]
  | C p q cc => simp only [substPrim, mapElemNodes, elemCurrentInto, hcond, hval]
  | IS p q iv => simp only [substPrim, mapElemNodes, elemCurrentInto, hcond]
  | VS p q v =>
    obtain ⟨hp, hq⟩ := hvs p q v rfl
    simp only [substPrim, mapElemNodes, elemCurrentInto, if_neg hp, if_neg hq]
  | Sub sc => rfl

theorem currentInto_subst_old {K : Type} [Field K] (env : String → K) (s : K)
    (φ : Node → K) (ψ : Branch → K) (f : Element) (old new : Node)
    (hne : old ≠ new) :
    elemCurrentInto env s φ ψ (substPrim old new f) old = 0 := by
  apply currentInto_zero_of_not_mem
  rw [elemRawNodes_substPrim]
  intro hc
  obtain ⟨q, hq, heq⟩ := List.mem_map.mp hc
  by_cases h : q = old
  · rw [if_pos h] at heq
    exact hne heq.symm
  · rw [if_neg h] at heq
    exact h heq

theorem currentInto_subst_new {K : Type} [Field K] (env : String → K) (s : K)
    (φ : Node → K) (ψ : Branch → K) (f : Element) (old new : Node)
    (hφ : φ new = φ old) (hnew : new ∉ elemRawNodes f)
    (hvs : ∀ p q v, f = Element.VS p q v → p ≠ old ∧ q ≠ old) :
    elemCurrentInto env s φ ψ (substPrim old new f) new
      = elemCurrentInto env s φ ψ f old := by
  have hval : ∀ q' : Node, φ (if q' = old then new else q') = φ q' := by
    intro q'
    by_cases h : q' = old
    · subst h
      rw [if_pos rfl, hφ]
    · rw [if_neg h]
  have hcond : ∀ q' ∈ elemRawNodes f, ((if q' = old then new else q') = new) ↔ (q' = old) := by
    intro q' hq'
    by_cases h : q' = old
    · simp [h]
    · rw [if_neg h]
      constructor
      · intro hc; exact absurd (hc ▸ hq') hnew
      · intro hc; exact absurd hc h
  cases f with
  | R p q r =>
    have h1 := hcond p (by simp [elemRawNodes])
    have h2 := hcond q (by simp [elemRawNodes])
    simp only [substPrim, mapElemNodes, elemCurrentInto, h1, h2, hval]
  | C p q cc =>
    have h1 := hcond p (by simp [elemRawNodes])
    have h2 := hcond q (by simp [elemRawNodes])
    simp only [substPrim, mapElemNodes, elemCurrentInto, h1, h2, hval]
  | IS p q iv =>
    have h1 := hcond p (by simp [elemRawNodes])
    have h2 := hcond q (by simp [elemRawNodes])
    simp only [substPrim, mapElemNodes, elemCurrentInto, h1, h2]
  | VS p q v =>
    obtain ⟨hp, hq⟩ := hvs p q v rfl
    have hpn : p ≠ new := fun hc => hnew (hc ▸ by simp [elemRawNodes])
    have hqn : q ≠ new := fun hc => hnew (hc ▸ by simp [elemRawNodes])
    simp only [substPrim, mapElemNodes, elemCurrentInto, if_neg hp, if_neg hq]
    simp [hpn, hqn]
  | Sub sc => rfl

theorem alookup_split {α : Type} :
    ∀ (l : List (String × α)) (k : String) (v : α),
    (l.map Prod.fst).Nodup → alookup l k = some v →
    ∃ pre post, l = pre ++ (k, v) :: post ∧
      (∀ kv ∈ pre, kv.1 ≠ k) ∧ (∀ kv ∈ post, kv.1 ≠ k) := by
  intro l
  induction l with
  | nil => intro k v _ h; exact absurd h (by simp [alookup])
  | cons kv rest ih =>
    intro k v hnd h
    obtain ⟨k', v'⟩ := kv
    rw [alookup] at h
    by_cases hk : k' = k
    · rw [if_pos hk] at h
      obtain rfl : v' = v := Option.some.inj h
      subst hk
      refine ⟨[], rest, rfl, by simp, ?_⟩
      intro kv2 hkv2 hc
      have : k' ∈ rest.map Prod.fst := List.mem_map.mpr ⟨kv2, hkv2, hc⟩
      exact (List.nodup_cons.mp (by simpa using hnd)).1 this
    · rw [if_neg hk] at h
      obtain ⟨pre, post, heq, hpre, hpost⟩ :=
        ih k v (List.nodup_cons.mp (by simpa using hnd)).2 h
      exact ⟨(k', v') :: pre, post, by rw [heq]; rfl,
        fun kv2 hkv2 => by
          rcases List.mem_cons.mp hkv2 with h2 | h2
          · rw [h2]; exact hk
          · exact hpre kv2 h2,
        hpost⟩

/-- The circuit produced by `save_current` on a depth-1 path, written out:
the probed element respliced onto the fresh probe node, and the zero-valued
ammeter appended. -/
def probeCircuit (c : SubCircuit) (iname t : String) (e' : Element) (n : Node) : SubCircuit :=
  .mk c.terminals c.termNodes
    ((c.elements.map (fun kv => if kv.1 = iname then (iname, e') else kv))
      ++ [(iname ++ "." ++ t ++ "_probe_vs",
           .VS n (Node.mk (iname ++ "." ++ t ++ "_probe")) (.const 0))])

theorem saveCurrent_eq_probeCircuit (c : SubCircuit) (iname t : String)
    (e e' : Element) (n : Node)
    (hfind : findElem c iname = some e)
    (hterm : elemTermNode e t = some n)
    (hreb : rebindTerm e t (Node.mk (iname ++ "." ++ t ++ "_probe")) = some e') :
    saveCurrent c [iname, t] = some (probeCircuit c iname t e' n) := by
  rw [saveCurrent, hfind]
  simp only [Option.some_bind, hterm, hreb, Option.map_some']
  rfl

theorem map_replace_of_ne {iname : String} (e' : Element) :
    ∀ (l : List (String × Element)), (∀ kv ∈ l, kv.1 ≠ iname) →
    l.map (fun kv => if kv.1 = iname then (iname, e') else kv) = l := by
  intro l hl
  induction l with
  | nil => rfl
  | cons kv rest ih =>
    rw [List.map_cons, if_neg (hl kv (List.mem_cons_self _ _)),
      ih (fun kv2 h2 => hl kv2 (List.mem_cons_of_mem _ h2))]

theorem findProbeVS_append :
    ∀ (l1 l2 : List (String × Element)) (nn : Node),
    (∀ kv ∈ l1, ∀ p q v, kv.2 = Element.VS p q v → q ≠ nn) →
    findProbeVS (l1 ++ l2) nn = findProbeVS l2 nn := by
  intro l1
  induction l1 with
  | nil => intro l2 nn _; rfl
  | cons kv rest ih =>
    intro l2 nn h
    obtain ⟨key, el⟩ := kv
    cases el with
    | VS p q v =>
      rw [List.cons_append, findProbeVS,
        if_neg (h (key, .VS p q v) (List.mem_cons_self _ _) p q v rfl)]
      exact ih l2 nn (fun kv2 h2 => h kv2 (List.mem_cons_of_mem _ h2))
    | R p q r =>
      rw [List.cons_append,
        show findProbeVS ((key, Element.R p q r) :: (rest ++ l2)) nn
          = findProbeVS (rest ++ l2) nn from rfl]
      exact ih l2 nn (fun kv2 h2 => h kv2 (List.mem_cons_of_mem _ h2))
    | C p q cc =>
      rw [List.cons_append,
        show findProbeVS ((key, Element.C p q cc) :: (rest ++ l2)) nn
          = findProbeVS (rest ++ l2) nn from rfl]
      exact ih l2 nn (fun kv2 h2 => h kv2 (List.mem_cons_of_mem _ h2))
    | IS p q iv =>
      rw [List.cons_append,
        show findProbeVS ((key, Element.IS p q iv) :: (rest ++ l2)) nn
          = findProbeVS (rest ++ l2) nn from rfl]
      exact ih l2 nn (fun kv2 h2 => h kv2 (List.mem_cons_of_mem _ h2))
    | Sub sc =>
      rw [List.cons_append,
        show findProbeVS ((key, Element.Sub sc) :: (rest ++ l2)) nn
          = findProbeVS (rest ++ l2) nn from rfl]
      exact ih l2 nn (fun kv2 h2 => h kv2 (List.mem_cons_of_mem _ h2))

theorem mem_nonGroundNodes (c : SubCircuit) (m : Node) :
    m ∈ nonGroundNodes c ↔ m ∈ subNodeList c ∧ m ≠ gnd := by
  rw [nonGroundNodes, List.mem_filter]
  simp

theorem probe_fresh_ne_gnd (iname t : String) :
    Node.mk (iname ++ "." ++ t ++ "_probe") ≠ gnd := by
  intro h
  have hd : (iname ++ "." ++ t ++ "_probe").data = "gnd".data :=
    congrArg (fun nd : Node => nd.name.data) h
  have hmem : '.' ∈ (iname ++ "." ++ t ++ "_probe").data := by
    rw [String.data_append, String.data_append, String.data_append]
    refine List.mem_append.mpr (Or.inl (List.mem_append.mpr (Or.inl
      (List.mem_append.mpr (Or.inr ?_)))))
    decide
  rw [hd] at hmem
  revert hmem
  decide

/-- The fresh probe node spliced in by `save_current`. -/
def probeFresh (iname t : String) : Node := Node.mk (iname ++ "." ++ t ++ "_probe")

/-- The zero-valued ammeter voltage source inserted by `save_current`. -/
def probeVSElem (iname t : String) (n : Node) : Element :=
  Element.VS n (probeFresh iname t) (SymExpr.const 0)

theorem probeCircuit_elements (c : SubCircuit) (iname t : String) (e' : Element) (n : Node) :
    (probeCircuit c iname t e' n).elements
      = (c.elements.map (fun kv => if kv.1 = iname then (iname, e') else kv))
          ++ [(iname ++ "." ++ t ++ "_probe_vs", probeVSElem iname t n)] := rfl

theorem probeCircuit_termNodes (c : SubCircuit) (iname t : String) (e' : Element) (n : Node) :
    (probeCircuit c iname t e' n).termNodes = c.termNodes := rfl

/-- Assemble an MNA unknown vector from a node-voltage assignment and a
branch-current assignment, following the system's unknown ordering. -/
def xOf {K : Type} [Field K] (c : SubCircuit) (φ : Node → K) (ψ : Branch → K) (i : ℕ) : K :=
  match (nonGroundNodes c)[i]? with
  | some m => φ m
  | none =>
      match (subBranchList c)[i - (nonGroundNodes c).length]? with
      | some b => ψ b
      | none => 0

theorem nodeVolt_xOf {K : Type} [Field K] (c : SubCircuit) (φ : Node → K) (ψ : Branch → K)
    (m : Node) (hm : m ∈ subNodeList c) (hg : φ gnd = 0) :
    nodeVolt c (xOf c φ ψ) m = φ m := by
  by_cases hmg : m = gnd
  · subst hmg
    rw [nodeVolt, if_pos rfl, hg]
  · have hmem : m ∈ nonGroundNodes c := (mem_nonGroundNodes c m).mpr ⟨hm, hmg⟩
    obtain ⟨i, hi⟩ := idxOf_mem _ _ hmem
    have hget : (nonGroundNodes c)[i]? = some m :=
      idxOf_getElem _ _ _ (nonGroundNodes_nodup c) hi
    rw [nodeVolt_eq c _ m i hi, xOf, hget]

theorem branchCur_xOf {K : Type} [Field K] (c : SubCircuit) (φ : Node → K) (ψ : Branch → K)
    (b : Branch) (hb : b ∈ subBranchList c) (hnd : (subBranchList c).Nodup) :
    branchCur c (xOf c φ ψ) b = ψ b := by
  obtain ⟨pos, hpos⟩ := idxOf_mem _ _ hb
  have hk : branchIdx c b = some (pos + (nonGroundNodes c).length) := by
    rw [branchIdx, hpos]
    rfl
  rw [branchCur_eq c _ b _ hk, xOf]
  have hnone : (nonGroundNodes c)[pos + (nonGroundNodes c).length]? = none := by
    rw [List.getElem?_eq_none_iff]
    omega
  rw [hnone]
  have hsub : pos + (nonGroundNodes c).length - (nonGroundNodes c).length = pos := by omega
  rw [hsub, idxOf_getElem _ _ _ hnd hpos]

theorem branch_mem_nodes (c : SubCircuit) (b : Branch) (hb : b ∈ subBranchList c) :
    b.plus ∈ subNodeList c ∧ b.minus ∈ subNodeList c := by
  rw [subBranchList_eq_filterMap] at hb
  obtain ⟨f, hf, hvb⟩ := List.mem_filterMap.mp hb
  cases f with
  | VS p q v =>
    obtain rfl : Branch.mk p q = b := Option.some.inj hvb
    exact ⟨flat_nodes_sub c _ hf p (by simp [elemRawNodes]),
      flat_nodes_sub c _ hf q (by simp [elemRawNodes])⟩
  | R p q r => exact absurd hvb (by rw [show vsBranch (Element.R p q r) = none from rfl]; simp)
  | C p q cc => exact absurd hvb (by rw [show vsBranch (Element.C p q cc) = none from rfl]; simp)
  | IS p q iv => exact absurd hvb (by rw [show vsBranch (Element.IS p q iv) = none from rfl]; simp)
  | Sub sc => exact absurd hvb (by rw [show vsBranch (Element.Sub sc) = none from rfl]; simp)

theorem kclNode_append {K : Type} [Field K] (env : String → K) (s : K) (φ : Node → K)
    (ψ : Branch → K) (l1 l2 : List Element) (m : Node) :
    kclNode env s φ ψ (l1 ++ l2) m = kclNode env s φ ψ l1 m + kclNode env s φ ψ l2 m := by
  simp [kclNode]

theorem kclNode_congr {K : Type} [Field K] (env : String → K) (s : K)
    (φ1 φ2 : Node → K) (ψ1 ψ2 : Branch → K) (els : List Element) (m : Node)
    (hφ : ∀ f ∈ els, ∀ p ∈ elemRawNodes f, φ1 p = φ2 p)
    (hψ : ∀ f ∈ els, ∀ b, vsBranch f = some b → ψ1 b = ψ2 b) :
    kclNode env s φ1 ψ1 els m = kclNode env s φ2 ψ2 els m := by
  rw [kclNode, kclNode]
  congr 1
  exact List.map_congr_left fun f hf =>
    currentInto_congr env s φ1 φ2 ψ1 ψ2 f m (hφ f hf) (hψ f hf)

theorem kclNode_map {K : Type} [Field K] (env : String → K) (s : K) (φ : Node → K)
    (ψ : Branch → K) (g : Element → Element) (l : List Element) (m : Node) :
    kclNode env s φ ψ (l.map g) m
      = (l.map (fun f => elemCurrentInto env s φ ψ (g f) m)).sum := by
  rw [kclNode, List.map_map]
  rfl

theorem kclNode_single {K : Type} [Field K] (env : String → K) (s : K) (φ : Node → K)
    (ψ : Branch → K) (f : Element) (m : Node) :
    kclNode env s φ ψ [f] m = elemCurrentInto env s φ ψ f m := by
  simp [kclNode]

/-- The well-formedness facts under which the probe frame property is
established: the probed element sits at a unique key, the rebind is exactly
the substitution of the probed node by the fresh probe node on the flattened
view, the fresh node is genuinely fresh, and no flattened voltage source of
the probed element touches the probed node (so its branch survives the
resplice unchanged). -/
structure ProbeCtx (c : SubCircuit) (iname t : String) (e e' : Element) (n : Node)
    (pre post : List (String × Element)) : Prop where
  hsplit : c.elements = pre ++ (iname, e) :: post
  hpre : ∀ kv ∈ pre, kv.1 ≠ iname
  hpost : ∀ kv ∈ post, kv.1 ≠ iname
  hterm' : elemTermNode e' t = some (probeFresh iname t)
  hnotvs' : ∀ p q v, e' ≠ Element.VS p q v
  hnd : (subBranchList c).Nodup
  hfreshN : probeFresh iname t ∉ subNodeList c
  hnmem : n ∈ subNodeList c
  hn_gnd : n ≠ gnd
  hflat : walkFlat [(iname, e')]
    = (walkFlat [(iname, e)]).map (substPrim n (probeFresh iname t))
  hnodes : entryNodes (iname, e')
    = (entryNodes (iname, e)).map (fun q => if q = n then probeFresh iname t else q)
  hvsP : ∀ p q v, Element.VS p q v ∈ walkFlat [(iname, e)] → p ≠ n ∧ q ≠ n

theorem probe_elements {c : SubCircuit} {iname t : String} {e e' : Element} {n : Node}
    {pre post : List (String × Element)} (hc : ProbeCtx c iname t e e' n pre post) :
    (probeCircuit c iname t e' n).elements
      = pre ++ ([(iname, e')] ++ (post ++ [(iname ++ "." ++ t ++ "_probe_vs",
          probeVSElem iname t n)])) := by
  rw [probeCircuit_elements, hc.hsplit, List.map_append, List.map_cons,
    map_replace_of_ne e' pre hc.hpre, map_replace_of_ne e' post hc.hpost,
    if_pos rfl]
  simp [List.append_assoc]

theorem probe_flat {c : SubCircuit} {iname t : String} {e e' : Element} {n : Node}
    {pre post : List (String × Element)} (hc : ProbeCtx c iname t e e' n pre post) :
    flatElems (probeCircuit c iname t e' n)
      = walkFlat pre ++ ((walkFlat [(iname, e)]).map (substPrim n (probeFresh iname t))
          ++ (walkFlat post ++ [probeVSElem iname t n])) := by
  obtain ⟨T, TN, els⟩ := c
  have h1 : flatElems (probeCircuit (SubCircuit.mk T TN els) iname t e' n)
      = walkFlat ((probeCircuit (SubCircuit.mk T TN els) iname t e' n).elements) := rfl
  rw [h1, probe_elements hc, walkFlat_append, walkFlat_append, walkFlat_append, hc.hflat]
  rfl

theorem flat_split {c : SubCircuit} {iname t : String} {e e' : Element} {n : Node}
    {pre post : List (String × Element)} (hc : ProbeCtx c iname t e e' n pre post) :
    flatElems c = walkFlat pre ++ (walkFlat [(iname, e)] ++ walkFlat post) := by
  obtain ⟨T, TN, els⟩ := c
  have h1 : flatElems (SubCircuit.mk T TN els) = walkFlat els := rfl
  have h2 : els = pre ++ (iname, e) :: post := hc.hsplit
  rw [h1, h2, show (iname, e) :: post = [(iname, e)] ++ post from rfl,
    walkFlat_append, walkFlat_append]

theorem walkNodes_split {c : SubCircuit} {iname t : String} {e e' : Element} {n : Node}
    {pre post : List (String × Element)} (hc : ProbeCtx c iname t e e' n pre post) :
    ∀ x : Node, x ∈ subNodeList c ↔ x ∈ c.termNodes ∨ x ∈ walkNodes pre
      ∨ x ∈ entryNodes (iname, e) ∨ x ∈ walkNodes post := by
  intro x
  rw [mem_subNodeList]
  constructor
  · rintro (h | ⟨kv, hkv, hx⟩)
    · exact Or.inl h
    · rw [hc.hsplit] at hkv
      rcases List.mem_append.mp hkv with h1 | h1
      · refine Or.inr (Or.inl ?_)
        rw [walkNodes_eq_bind]
        exact List.mem_flatMap.mpr ⟨kv, h1, hx⟩
      · rcases List.mem_cons.mp h1 with h2 | h2
        · subst h2
          exact Or.inr (Or.inr (Or.inl hx))
        · refine Or.inr (Or.inr (Or.inr ?_))
          rw [walkNodes_eq_bind]
          exact List.mem_flatMap.mpr ⟨kv, h2, hx⟩
  · rintro (h | h | h | h)
    · exact Or.inl h
    · rw [walkNodes_eq_bind] at h
      obtain ⟨kv, hkv, hx⟩ := List.mem_flatMap.mp h
      exact Or.inr ⟨kv, by rw [hc.hsplit]; exact List.mem_append_left _ hkv, hx⟩
    · exact Or.inr ⟨(iname, e), by rw [hc.hsplit]; simp, h⟩
    · rw [walkNodes_eq_bind] at h
      obtain ⟨kv, hkv, hx⟩ := List.mem_flatMap.mp h
      exact Or.inr ⟨kv, by rw [hc.hsplit]; simp [hkv], hx⟩

theorem walkNodes_split_probe {c : SubCircuit} {iname t : String} {e e' : Element} {n : Node}
    {pre post : List (String × Element)} (hc : ProbeCtx c iname t e e' n pre post) :
    ∀ x : Node, x ∈ subNodeList (probeCircuit c iname t e' n) ↔ x ∈ c.termNodes
      ∨ x ∈ walkNodes pre ∨ x ∈ entryNodes (iname, e') ∨ x ∈ walkNodes post
      ∨ x = n ∨ x = probeFresh iname t := by
  intro x
  rw [mem_subNodeList, probe_elements hc, probeCircuit_termNodes]
  have hpv : entryNodes (iname ++ "." ++ t ++ "_probe_vs", probeVSElem iname t n)
      = [n, probeFresh iname t] := rfl
  constructor
  · rintro (h | ⟨kv, hkv, hx⟩)
    · exact Or.inl h
    · simp only [List.mem_append, List.mem_cons, List.mem_singleton,
        List.not_mem_nil, or_false] at hkv
      rcases hkv with h1 | h1 | h1 | h1
      · refine Or.inr (Or.inl ?_)
        rw [walkNodes_eq_bind]
        exact List.mem_flatMap.mpr ⟨kv, h1, hx⟩
      · subst h1
        exact Or.inr (Or.inr (Or.inl hx))
      · refine Or.inr (Or.inr (Or.inr (Or.inl ?_)))
        rw [walkNodes_eq_bind]
        exact List.mem_flatMap.mpr ⟨kv, h1, hx⟩
      · subst h1
        rw [hpv] at hx
        rcases List.mem_cons.mp hx with h2 | h2
        · exact Or.inr (Or.inr (Or.inr (Or.inr (Or.inl h2))))
        · exact Or.inr (Or.inr (Or.inr (Or.inr (Or.inr (by simpa using h2)))))
  · rintro (h | h | h | h | h | h)
    · exact Or.inl h
    · rw [walkNodes_eq_bind] at h
      obtain ⟨kv, hkv, hx⟩ := List.mem_flatMap.mp h
      exact Or.inr ⟨kv, by simp [hkv], hx⟩
    · exact Or.inr ⟨(iname, e'), by simp, h⟩
    · rw [walkNodes_eq_bind] at h
      obtain ⟨kv, hkv, hx⟩ := List.mem_flatMap.mp h
      exact Or.inr ⟨kv, by simp [hkv], hx⟩
    · exact Or.inr ⟨(iname ++ "." ++ t ++ "_probe_vs", probeVSElem iname t n),
        by simp, by rw [hpv, h]; simp⟩
    · exact Or.inr ⟨(iname ++ "." ++ t ++ "_probe_vs", probeVSElem iname t n),
        by simp, by rw [hpv, h]; simp⟩

theorem probe_nodes_sup {c : SubCircuit} {iname t : String} {e e' : Element} {n : Node}
    {pre post : List (String × Element)} (hc : ProbeCtx c iname t e e' n pre post) :
    ∀ x ∈ subNodeList c, x ∈ subNodeList (probeCircuit c iname t e' n) := by
  intro x hx
  rw [walkNodes_split_probe hc]
  rcases (walkNodes_split hc x).mp hx with h | h | h | h
  · exact Or.inl h
  · exact Or.inr (Or.inl h)
  · by_cases hxn : x = n
    · exact Or.inr (Or.inr (Or.inr (Or.inr (Or.inl hxn))))
    · refine Or.inr (Or.inr (Or.inl ?_))
      rw [hc.hnodes]
      exact List.mem_map.mpr ⟨x, h, by rw [if_neg hxn]⟩
  · exact Or.inr (Or.inr (Or.inr (Or.inl h)))

theorem probe_fresh_mem {c : SubCircuit} {iname t : String} {e e' : Element} {n : Node}
    {pre post : List (String × Element)} (hc : ProbeCtx c iname t e e' n pre post) :
    probeFresh iname t ∈ subNodeList (probeCircuit c iname t e' n) := by
  rw [walkNodes_split_probe hc]
  exact Or.inr (Or.inr (Or.inr (Or.inr (Or.inr rfl))))

theorem probe_nodes_sub {c : SubCircuit} {iname t : String} {e e' : Element} {n : Node}
    {pre post : List (String × Element)} (hc : ProbeCtx c iname t e e' n pre post) :
    ∀ x ∈ subNodeList (probeCircuit c iname t e' n),
      x ∈ subNodeList c ∨ x = probeFresh iname t := by
  intro x hx
  rcases (walkNodes_split_probe hc x).mp hx with h | h | h | h | h | h
  · exact Or.inl ((walkNodes_split hc x).mpr (Or.inl h))
  · exact Or.inl ((walkNodes_split hc x).mpr (Or.inr (Or.inl h)))
  · rw [hc.hnodes] at h
    obtain ⟨q, hq, hqx⟩ := List.mem_map.mp h
    by_cases hqn : q = n
    · rw [if_pos hqn] at hqx
      exact Or.inr hqx.symm
    · rw [if_neg hqn] at hqx
      subst hqx
      exact Or.inl ((walkNodes_split hc q).mpr (Or.inr (Or.inr (Or.inl hq))))
  · exact Or.inl ((walkNodes_split hc x).mpr (Or.inr (Or.inr (Or.inr h))))
  · subst h
    exact Or.inl hc.hnmem
  · exact Or.inr h

theorem probe_branches {c : SubCircuit} {iname t : String} {e e' : Element} {n : Node}
    {pre post : List (String × Element)} (hc : ProbeCtx c iname t e e' n pre post) :
    subBranchList (probeCircuit c iname t e' n)
      = subBranchList c ++ [Branch.mk n (probeFresh iname t)] := by
  rw [subBranchList_eq_filterMap, probe_flat hc, subBranchList_eq_filterMap, flat_split hc,
    List.filterMap_append, List.filterMap_append, List.filterMap_append,
    List.filterMap_append, List.filterMap_append]
  have hmid : ((walkFlat [(iname, e)]).map (substPrim n (probeFresh iname t))).filterMap vsBranch
      = (walkFlat [(iname, e)]).filterMap vsBranch := by
    rw [List.filterMap_map]
    refine List.filterMap_congr fun f hf => ?_
    rw [Function.comp_apply]
    exact vsBranch_substPrim_avoid n (probeFresh iname t) f
      (fun p q v hfe => hc.hvsP p q v (hfe ▸ hf))
  have hpv : ([probeVSElem iname t n]).filterMap vsBranch
      = [Branch.mk n (probeFresh iname t)] := rfl
  rw [hmid, hpv]
  simp [List.append_assoc]

theorem probe_new_branch_not_mem {c : SubCircuit} {iname t : String} {e e' : Element}
    {n : Node} {pre post : List (String × Element)}
    (hc : ProbeCtx c iname t e e' n pre post) :
    Branch.mk n (probeFresh iname t) ∉ subBranchList c :=
  fun hb => hc.hfreshN (branch_mem_nodes c _ hb).2

theorem probe_nodup {c : SubCircuit} {iname t : String} {e e' : Element} {n : Node}
    {pre post : List (String × Element)} (hc : ProbeCtx c iname t e e' n pre post) :
    (subBranchList (probeCircuit c iname t e' n)).Nodup := by
  rw [probe_branches hc]
  rw [List.nodup_append]
  refine ⟨hc.hnd, List.nodup_singleton _, ?_⟩
  intro b hb hb1
  rw [List.mem_singleton] at hb1
  subst hb1
  exact probe_new_branch_not_mem hc hb

theorem getTerminalBranch_pair (c : SubCircuit) (iname t : String) (f : Element)
    (hfind : findElem c iname = some f) (hnvs : ∀ p q v, f ≠ Element.VS p q v)
    (nn : Node) (hterm : elemTermNode f t = some nn) :
    getTerminalBranch c [iname, t] = findProbeVS c.elements nn := by
  have hunf : getTerminalBranch c [iname, t]
      = (findElem c iname).bind (fun e => match e with
        | Element.VS p m _ =>
            if t = "plus" ∨ t = "minus" then some (Branch.mk p m) else none
        | _ => (elemTermNode e t).bind fun x => findProbeVS c.elements x) := rfl
  rw [hunf, hfind]
  cases f with
  | VS p q v => exact absurd rfl (hnvs p q v)
  | R p q r =>
    simp only [Option.some_bind]
    rw [hterm]
    rfl
  | C p q cc =>
    simp only [Option.some_bind]
    rw [hterm]
    rfl
  | IS p q iv =>
    simp only [Option.some_bind]
    rw [hterm]
    rfl
  | Sub sc =>
    simp only [Option.some_bind]
    rw [hterm]
    rfl

theorem probe_findElem {c : SubCircuit} {iname t : String} {e e' : Element} {n : Node}
    {pre post : List (String × Element)} (hc : ProbeCtx c iname t e e' n pre post) :
    findElem (probeCircuit c iname t e' n) iname = some e' := by
  rw [findElem, probe_elements hc,
    alookup_append_of_not_mem _ _ _ (by
      intro hmem
      obtain ⟨kv, hkv, hkv1⟩ := List.mem_map.mp hmem
      exact hc.hpre kv hkv hkv1)]
  rw [show ([(iname, e')] ++ (post ++ [(iname ++ "." ++ t ++ "_probe_vs",
      probeVSElem iname t n)])) = (iname, e') :: (post ++ [(iname ++ "." ++ t ++ "_probe_vs",
      probeVSElem iname t n)]) from rfl, alookup, if_pos rfl]

theorem probe_gtb {c : SubCircuit} {iname t : String} {e e' : Element} {n : Node}
    {pre post : List (String × Element)} (hc : ProbeCtx c iname t e e' n pre post) :
    getTerminalBranch (probeCircuit c iname t e' n) [iname, t]
      = some (Branch.mk n (probeFresh iname t)) := by
  rw [getTerminalBranch_pair _ iname t e' (probe_findElem hc) hc.hnotvs'
    (probeFresh iname t) hc.hterm']
  rw [probe_elements hc,
    show pre ++ ([(iname, e')] ++ (post ++ [(iname ++ "." ++ t ++ "_probe_vs",
        probeVSElem iname t n)]))
      = (pre ++ ([(iname, e')] ++ post)) ++ [(iname ++ "." ++ t ++ "_probe_vs",
        probeVSElem iname t n)] from by simp [List.append_assoc]]
  rw [findProbeVS_append _ _ _ (by
    intro kv hkv p q v hvs hq
    subst hq
    simp only [List.mem_append, List.mem_singleton, List.mem_cons,
      List.not_mem_nil, or_false] at hkv
    rcases hkv with h1 | h1 | h1
    · refine hc.hfreshN ((walkNodes_split hc _).mpr (Or.inr (Or.inl ?_)))
      rw [walkNodes_eq_bind]
      refine List.mem_flatMap.mpr ⟨kv, h1, ?_⟩
      obtain ⟨key, f⟩ := kv
      obtain rfl : f = Element.VS p (probeFresh iname t) v := hvs
      simp [entryNodes, elemRawNodes]
    · obtain ⟨key, f⟩ := kv
      have hfe : f = e' := congrArg Prod.snd h1
      exact hc.hnotvs' p (probeFresh iname t) v (by rw [← hfe]; exact hvs)
    · refine hc.hfreshN ((walkNodes_split hc _).mpr (Or.inr (Or.inr (Or.inr ?_))))
      rw [walkNodes_eq_bind]
      refine List.mem_flatMap.mpr ⟨kv, h1, ?_⟩
      obtain ⟨key, f⟩ := kv
      obtain rfl : f = Element.VS p (probeFresh iname t) v := hvs
      simp [entryNodes, elemRawNodes])]
  rw [show findProbeVS [(iname ++ "." ++ t ++ "_probe_vs", probeVSElem iname t n)]
      (probeFresh iname t)
    = if probeFresh iname t = probeFresh iname t
        then some (Branch.mk n (probeFresh iname t))
        else findProbeVS [] (probeFresh iname t) from rfl, if_pos rfl]

theorem kclNode_zero_of_absent {K : Type} [Field K] (env : String → K) (s : K)
    (φ : Node → K) (ψ : Branch → K) (l : List Element) (m : Node)
    (h : ∀ f ∈ l, m ∉ elemRawNodes f) :
    kclNode env s φ ψ l m = 0 := by
  rw [kclNode, List.map_congr_left
    (fun f hf => currentInto_zero_of_not_mem env s φ ψ f m (h f hf))]
  simp

theorem mem_flat_of_pre {c : SubCircuit} {iname t : String} {e e' : Element} {n : Node}
    {pre post : List (String × Element)} (hc : ProbeCtx c iname t e e' n pre post) :
    ∀ f ∈ walkFlat pre, f ∈ flatElems c := by
  intro f hf
  rw [flat_split hc]
  exact List.mem_append_left _ hf

theorem mem_flat_of_mid {c : SubCircuit} {iname t : String} {e e' : Element} {n : Node}
    {pre post : List (String × Element)} (hc : ProbeCtx c iname t e e' n pre post) :
    ∀ f ∈ walkFlat [(iname, e)], f ∈ flatElems c := by
  intro f hf
  rw [flat_split hc]
  exact List.mem_append_right _ (List.mem_append_left _ hf)

theorem mem_flat_of_post {c : SubCircuit} {iname t : String} {e e' : Element} {n : Node}
    {pre post : List (String × Element)} (hc : ProbeCtx c iname t e e' n pre post) :
    ∀ f ∈ walkFlat post, f ∈ flatElems c := by
  intro f hf
  rw [flat_split hc]
  exact List.mem_append_right _ (List.mem_append_right _ hf)

theorem probe_n_ne_fresh {c : SubCircuit} {iname t : String} {e e' : Element} {n : Node}
    {pre post : List (String × Element)} (hc : ProbeCtx c iname t e e' n pre post) :
    n ≠ probeFresh iname t :=
  fun h => hc.hfreshN (h ▸ hc.hnmem)

theorem kcl_subst_ne_ctx {c : SubCircuit} {iname t : String} {e e' : Element} {n : Node}
    {pre post : List (String × Element)} (hc : ProbeCtx c iname t e e' n pre post)
    {K : Type} [Field K] (env : String → K) (s : K) (φ : Node → K) (ψ : Branch → K)
    (m : Node) (hmo : m ≠ n) (hmn : m ≠ probeFresh iname t)
    (hφ : φ (probeFresh iname t) = φ n) :
    kclNode env s φ ψ ((walkFlat [(iname, e)]).map (substPrim n (probeFresh iname t))) m
      = kclNode env s φ ψ (walkFlat [(iname, e)]) m := by
  rw [kclNode_map, kclNode]
  congr 1
  exact List.map_congr_left fun f hf =>
    currentInto_subst_ne env s φ ψ f m n _ hmo hmn hφ
      (fun p q v hfe => hc.hvsP p q v (hfe ▸ hf))

theorem kcl_subst_old_ctx {c : SubCircuit} {iname t : String} {e e' : Element} {n : Node}
    {pre post : List (String × Element)} (hc : ProbeCtx c iname t e e' n pre post)
    {K : Type} [Field K] (env : String → K) (s : K) (φ : Node → K) (ψ : Branch → K) :
    kclNode env s φ ψ ((walkFlat [(iname, e)]).map (substPrim n (probeFresh iname t))) n
      = 0 := by
  rw [kclNode_map, List.map_congr_left
    (fun f hf => currentInto_subst_old env s φ ψ f n _ (probe_n_ne_fresh hc))]
  simp

theorem kcl_subst_new_ctx {c : SubCircuit} {iname t : String} {e e' : Element} {n : Node}
    {pre post : List (String × Element)} (hc : ProbeCtx c iname t e e' n pre post)
    {K : Type} [Field K] (env : String → K) (s : K) (φ : Node → K) (ψ : Branch → K)
    (hφ : φ (probeFresh iname t) = φ n) :
    kclNode env s φ ψ ((walkFlat [(iname, e)]).map (substPrim n (probeFresh iname t)))
        (probeFresh iname t)
      = kclNode env s φ ψ (walkFlat [(iname, e)]) n := by
  rw [kclNode_map, kclNode]
  congr 1
  refine List.map_congr_left fun f hf => ?_
  exact currentInto_subst_new env s φ ψ f n _ hφ
    (fun hmem => hc.hfreshN (flat_nodes_sub c f (mem_flat_of_mid hc f hf) _ hmem))
    (fun p q v hfe => hc.hvsP p q v (hfe ▸ hf))

theorem pv_current_ne {K : Type} [Field K] (env : String → K) (s : K)
    (φ : Node → K) (ψ : Branch → K) (iname t : String) (n m : Node)
    (h1 : n ≠ m) (h2 : probeFresh iname t ≠ m) :
    elemCurrentInto env s φ ψ (probeVSElem iname t n) m = 0 := by
  show (if n = m then ψ (Branch.mk n (probeFresh iname t)) else 0)
    + (if probeFresh iname t = m
        then -(ψ (Branch.mk n (probeFresh iname t))) else 0) = 0
  rw [if_neg h1, if_neg h2, add_zero]

theorem pv_current_at_n {K : Type} [Field K] (env : String → K) (s : K)
    (φ : Node → K) (ψ : Branch → K) (iname t : String) (n : Node)
    (h : probeFresh iname t ≠ n) :
    elemCurrentInto env s φ ψ (probeVSElem iname t n) n
      = ψ (Branch.mk n (probeFresh iname t)) := by
  show (if n = n then ψ (Branch.mk n (probeFresh iname t)) else 0)
    + (if probeFresh iname t = n
        then -(ψ (Branch.mk n (probeFresh iname t))) else 0)
      = ψ (Branch.mk n (probeFresh iname t))
  rw [if_pos rfl, if_neg h, add_zero]

theorem pv_current_at_fresh {K : Type} [Field K] (env : String → K) (s : K)
    (φ : Node → K) (ψ : Branch → K) (iname t : String) (n : Node)
    (h : n ≠ probeFresh iname t) :
    elemCurrentInto env s φ ψ (probeVSElem iname t n) (probeFresh iname t)
      = -(ψ (Branch.mk n (probeFresh iname t))) := by
  show (if n = probeFresh iname t then ψ (Branch.mk n (probeFresh iname t)) else 0)
    + (if probeFresh iname t = probeFresh iname t
        then -(ψ (Branch.mk n (probeFresh iname t))) else 0)
      = -(ψ (Branch.mk n (probeFresh iname t)))
  rw [if_neg h, if_pos rfl, zero_add]

theorem vs_mem_subst_iff {c : SubCircuit} {iname t : String} {e e' : Element} {n : Node}
    {pre post : List (String × Element)} (hc : ProbeCtx c iname t e e' n pre post)
    (p q : Node) (v : SymExpr) :
    Element.VS p q v ∈ (walkFlat [(iname, e)]).map (substPrim n (probeFresh iname t))
      ↔ Element.VS p q v ∈ walkFlat [(iname, e)] := by
  constructor
  · intro h
    obtain ⟨f0, hf0, hsub⟩ := List.mem_map.mp h
    cases f0 with
    | VS p0 q0 v0 =>
      obtain ⟨hp0, hq0⟩ := hc.hvsP p0 q0 v0 hf0
      have : Element.VS (if p0 = n then probeFresh iname t else p0)
          (if q0 = n then probeFresh iname t else q0) v0 = Element.VS p q v := hsub
      rw [if_neg hp0, if_neg hq0] at this
      rw [← this]
      exact hf0
    | R p0 q0 r0 => exact absurd hsub (by simp [substPrim, mapElemNodes])
    | C p0 q0 c0 => exact absurd hsub (by simp [substPrim, mapElemNodes])
    | IS p0 q0 i0 => exact absurd hsub (by simp [substPrim, mapElemNodes])
    | Sub s0 => exact absurd hsub (by simp [substPrim, mapElemNodes])
  · intro h
    obtain ⟨hp, hq⟩ := hc.hvsP p q v h
    refine List.mem_map.mpr ⟨Element.VS p q v, h, ?_⟩
    show Element.VS (if p = n then probeFresh iname t else p)
        (if q = n then probeFresh iname t else q) v = Element.VS p q v
    rw [if_neg hp, if_neg hq]

theorem kclHolds_of_assignment {K : Type} [Field K] (c : SubCircuit) (env : String → K)
    (s : K) (φ : Node → K) (ψ : Branch → K) (hnd : (subBranchList c).Nodup)
    (hg : φ gnd = 0)
    (hrows : ∀ m ∈ nonGroundNodes c, kclNode env s φ ψ (flatElems c) m = 0)
    (hvs : ∀ p q v, Element.VS p q v ∈ flatElems c
      → φ p - φ q = SymExpr.eval env v) :
    kclHolds c env s (xOf c φ ψ)
    ∧ ∀ m ∈ subNodeList c, nodeVolt c (xOf c φ ψ) m = φ m := by
  have hagree : ∀ m ∈ subNodeList c, nodeVolt c (xOf c φ ψ) m = φ m :=
    fun m hm => nodeVolt_xOf c φ ψ m hm hg
  have hbagree : ∀ b ∈ subBranchList c, branchCur c (xOf c φ ψ) b = ψ b :=
    fun b hb => branchCur_xOf c φ ψ b hb hnd
  refine ⟨⟨?_, ?_⟩, hagree⟩
  · intro m hm
    rw [kclNode_congr env s (nodeVolt c (xOf c φ ψ)) φ (branchCur c (xOf c φ ψ)) ψ
      (flatElems c) m
      (fun f hf p hp => hagree p (flat_nodes_sub c f hf p hp))
      (fun f hf b hvb => hbagree b (by
        rw [subBranchList_eq_filterMap]
        exact List.mem_filterMap.mpr ⟨f, hf, hvb⟩))]
    exact hrows m hm
  · intro p q v hmem
    have hp : p ∈ subNodeList c :=
      flat_nodes_sub c _ hmem p (by simp [elemRawNodes])
    have hq : q ∈ subNodeList c :=
      flat_nodes_sub c _ hmem q (by simp [elemRawNodes])
    rw [hagree p hp, hagree q hq]
    exact hvs p q v hmem

theorem probe_kcl_transfer_back {c : SubCircuit} {iname t : String} {e e' : Element}
    {n : Node} {pre post : List (String × Element)}
    (hc : ProbeCtx c iname t e e' n pre post)
    {K : Type} [Field K] (env : String → K) (s : K) (φ : Node → K) (ψ : Branch → K)
    (hrows : ∀ m ∈ nonGroundNodes (probeCircuit c iname t e' n),
      kclNode env s φ ψ (flatElems (probeCircuit c iname t e' n)) m = 0)
    (hvs : ∀ p q v, Element.VS p q v ∈ flatElems (probeCircuit c iname t e' n)
      → φ p - φ q = SymExpr.eval env v) :
    (∀ m ∈ nonGroundNodes c, kclNode env s φ ψ (flatElems c) m = 0)
    ∧ (∀ p q v, Element.VS p q v ∈ flatElems c → φ p - φ q = SymExpr.eval env v) := by
  have hnef : n ≠ probeFresh iname t := probe_n_ne_fresh hc
  have hpvmem : Element.VS n (probeFresh iname t) (SymExpr.const 0)
      ∈ flatElems (probeCircuit c iname t e' n) := by
    rw [probe_flat hc]
    simp [probeVSElem]
  have hφfr : φ (probeFresh iname t) = φ n := by
    have h2 := hvs n (probeFresh iname t) (SymExpr.const 0) hpvmem
    rw [show SymExpr.eval env (SymExpr.const 0) = (0 : K) from by
      simp [SymExpr.eval]] at h2
    exact (sub_eq_zero.mp h2).symm
  constructor
  · intro m hm
    obtain ⟨hmN, hmg⟩ := (mem_nonGroundNodes c m).mp hm
    have hmfr : m ≠ probeFresh iname t := fun hh => hc.hfreshN (hh ▸ hmN)
    have hm' : m ∈ nonGroundNodes (probeCircuit c iname t e' n) :=
      (mem_nonGroundNodes _ m).mpr ⟨probe_nodes_sup hc m hmN, hmg⟩
    have hrow' := hrows m hm'
    rw [probe_flat hc, kclNode_append, kclNode_append, kclNode_append,
      kclNode_single] at hrow'
    rw [flat_split hc, kclNode_append, kclNode_append]
    by_cases hmn : m = n
    · rw [hmn] at hrow' ⊢
      rw [kcl_subst_old_ctx hc,
        pv_current_at_n env s φ ψ iname t n (Ne.symm hnef)] at hrow'
      have hfr' : probeFresh iname t ∈ nonGroundNodes (probeCircuit c iname t e' n) :=
        (mem_nonGroundNodes _ _).mpr ⟨probe_fresh_mem hc, probe_fresh_ne_gnd iname t⟩
      have hrowf := hrows _ hfr'
      rw [probe_flat hc, kclNode_append, kclNode_append, kclNode_append,
        kclNode_single] at hrowf
      rw [kclNode_zero_of_absent env s φ ψ (walkFlat pre) _ (fun f hf hmem =>
          hc.hfreshN (flat_nodes_sub c f (mem_flat_of_pre hc f hf) _ hmem)),
        kclNode_zero_of_absent env s φ ψ (walkFlat post) _ (fun f hf hmem =>
          hc.hfreshN (flat_nodes_sub c f (mem_flat_of_post hc f hf) _ hmem)),
        kcl_subst_new_ctx hc env s φ ψ hφfr,
        pv_current_at_fresh env s φ ψ iname t n hnef] at hrowf
      linear_combination hrow' + hrowf
    · rw [kcl_subst_ne_ctx hc env s φ ψ m hmn hmfr hφfr,
        pv_current_ne env s φ ψ iname t n m (fun hh => hmn hh.symm)
          (fun hh => hmfr hh.symm)] at hrow'
      linear_combination hrow'
  · intro p q v hmem
    rw [flat_split hc] at hmem
    have hmem' : Element.VS p q v ∈ flatElems (probeCircuit c iname t e' n) := by
      rw [probe_flat hc]
      rcases List.mem_append.mp hmem with h1 | h1
      · exact List.mem_append_left _ h1
      · rcases List.mem_append.mp h1 with h2 | h2
        · exact List.mem_append_right _ (List.mem_append_left _
            ((vs_mem_subst_iff hc p q v).mpr h2))
        · exact List.mem_append_right _ (List.mem_append_right _
            (List.mem_append_left _ h2))
    exact hvs p q v hmem'

theorem probe_kcl_transfer_fwd {c : SubCircuit} {iname t : String} {e e' : Element}
    {n : Node} {pre post : List (String × Element)}
    (hc : ProbeCtx c iname t e e' n pre post)
    {K : Type} [Field K] (env : String → K) (s : K) (φ : Node → K) (ψ : Branch → K)
    (hrows : ∀ m ∈ nonGroundNodes c, kclNode env s φ ψ (flatElems c) m = 0)
    (hvs : ∀ p q v, Element.VS p q v ∈ flatElems c → φ p - φ q = SymExpr.eval env v)
    (φ2 : Node → K) (ψ2 : Branch → K)
    (hφ2 : ∀ m2, φ2 m2 = if m2 = probeFresh iname t then φ n else φ m2)
    (hψ2 : ∀ b, ψ2 b = if b = Branch.mk n (probeFresh iname t)
      then kclNode env s φ ψ (walkFlat [(iname, e)]) n else ψ b) :
    (∀ m ∈ nonGroundNodes (probeCircuit c iname t e' n),
      kclNode env s φ2 ψ2 (flatElems (probeCircuit c iname t e' n)) m = 0)
    ∧ (∀ p q v, Element.VS p q v ∈ flatElems (probeCircuit c iname t e' n)
      → φ2 p - φ2 q = SymExpr.eval env v) := by
  have hnef : n ≠ probeFresh iname t := probe_n_ne_fresh hc
  have hφ2fr : φ2 (probeFresh iname t) = φ n := by rw [hφ2, if_pos rfl]
  have hφ2n : φ2 n = φ n := by rw [hφ2, if_neg hnef]
  have hφ2fr' : φ2 (probeFresh iname t) = φ2 n := by rw [hφ2fr, hφ2n]
  have hφeq : ∀ m2 ∈ subNodeList c, φ2 m2 = φ m2 := by
    intro m2 hm2
    rw [hφ2, if_neg (fun hh : m2 = probeFresh iname t => hc.hfreshN (hh ▸ hm2))]
  have hψeq : ∀ b ∈ subBranchList c, ψ2 b = ψ b := by
    intro b hb
    rw [hψ2, if_neg (fun hbe => hc.hfreshN (by
      have := (branch_mem_nodes c b hb).2
      rw [hbe] at this
      exact this))]
  have hψ2pr : ψ2 (Branch.mk n (probeFresh iname t))
      = kclNode env s φ ψ (walkFlat [(iname, e)]) n := by
    rw [hψ2, if_pos rfl]
  have hcgr : ∀ (l : List Element), (∀ f ∈ l, f ∈ flatElems c) →
      ∀ m2, kclNode env s φ2 ψ2 l m2 = kclNode env s φ ψ l m2 := by
    intro l hl m2
    refine kclNode_congr env s φ2 φ ψ2 ψ l m2 ?_ ?_
    · intro f hf p hp
      exact hφeq p (flat_nodes_sub c f (hl f hf) p hp)
    · intro f hf b hvb
      refine hψeq b ?_
      rw [subBranchList_eq_filterMap]
      exact List.mem_filterMap.mpr ⟨f, hl f hf, hvb⟩
  constructor
  · intro m hm
    obtain ⟨hmN', hmg⟩ := (mem_nonGroundNodes _ m).mp hm
    rw [probe_flat hc, kclNode_append, kclNode_append, kclNode_append, kclNode_single]
    rcases probe_nodes_sub hc m hmN' with hmc | hmfr
    · have hmfr2 : m ≠ probeFresh iname t := fun hh => hc.hfreshN (hh ▸ hmc)
      by_cases hmn : m = n
      · rw [hmn]
        rw [kcl_subst_old_ctx hc,
          pv_current_at_n env s φ2 ψ2 iname t n (Ne.symm hnef), hψ2pr,
          hcgr (walkFlat pre) (mem_flat_of_pre hc) n,
          hcgr (walkFlat post) (mem_flat_of_post hc) n]
        have hrown := hrows n ((mem_nonGroundNodes c n).mpr ⟨hc.hnmem, hc.hn_gnd⟩)
        rw [flat_split hc, kclNode_append, kclNode_append] at hrown
        linear_combination hrown
      · rw [kcl_subst_ne_ctx hc env s φ2 ψ2 m hmn hmfr2 hφ2fr',
          pv_current_ne env s φ2 ψ2 iname t n m (fun hh => hmn hh.symm)
            (fun hh => hmfr2 hh.symm),
          hcgr (walkFlat pre) (mem_flat_of_pre hc) m,
          hcgr (walkFlat [(iname, e)]) (mem_flat_of_mid hc) m,
          hcgr (walkFlat post) (mem_flat_of_post hc) m]
        have hrowm := hrows m ((mem_nonGroundNodes c m).mpr ⟨hmc, hmg⟩)
        rw [flat_split hc, kclNode_append, kclNode_append] at hrowm
        linear_combination hrowm
    · rw [hmfr]
      rw [kclNode_zero_of_absent env s φ2 ψ2 (walkFlat pre) _ (fun f hf hmem =>
          hc.hfreshN (flat_nodes_sub c f (mem_flat_of_pre hc f hf) _ hmem)),
        kclNode_zero_of_absent env s φ2 ψ2 (walkFlat post) _ (fun f hf hmem =>
          hc.hfreshN (flat_nodes_sub c f (mem_flat_of_post hc f hf) _ hmem)),
        kcl_subst_new_ctx hc env s φ2 ψ2 hφ2fr',
        pv_current_at_fresh env s φ2 ψ2 iname t n hnef, hψ2pr,
        hcgr (walkFlat [(iname, e)]) (mem_flat_of_mid hc) n]
      ring
  · intro p q v hmem
    rw [probe_flat hc] at hmem
    rcases List.mem_append.mp hmem with h1 | h1
    · have hfm : Element.VS p q v ∈ flatElems c := mem_flat_of_pre hc _ h1
      rw [hφeq p (flat_nodes_sub c _ hfm p (by simp [elemRawNodes])),
        hφeq q (flat_nodes_sub c _ hfm q (by simp [elemRawNodes]))]
      exact hvs p q v hfm
    · rcases List.mem_append.mp h1 with h2 | h2
      · have hfm : Element.VS p q v ∈ flatElems c :=
          mem_flat_of_mid hc _ ((vs_mem_subst_iff hc p q v).mp h2)
        rw [hφeq p (flat_nodes_sub c _ hfm p (by simp [elemRawNodes])),
          hφeq q (flat_nodes_sub c _ hfm q (by simp [elemRawNodes]))]
        exact hvs p q v hfm
      · rcases List.mem_append.mp h2 with h3 | h3
        · have hfm : Element.VS p q v ∈ flatElems c := mem_flat_of_post hc _ h3
          rw [hφeq p (flat_nodes_sub c _ hfm p (by simp [elemRawNodes])),
            hφeq q (flat_nodes_sub c _ hfm q (by simp [elemRawNodes]))]
          exact hvs p q v hfm
        · have hpq : Element.VS p q v
              = Element.VS n (probeFresh iname t) (SymExpr.const 0) := by
            simpa [probeVSElem] using h3
          injection hpq with hp hq hv
          subst hp
          subst hq
          subst hv
          rw [hφ2n, hφ2fr]
          simp [SymExpr.eval]

theorem probe_findElem_orig {c : SubCircuit} {iname t : String} {e e' : Element} {n : Node}
    {pre post : List (String × Element)} (hc : ProbeCtx c iname t e e' n pre post) :
    findElem c iname = some e := by
  rw [findElem, hc.hsplit, alookup_append_of_not_mem _ _ _ (by
    intro hmem
    obtain ⟨kv, hkv, hkv1⟩ := List.mem_map.mp hmem
    exact hc.hpre kv hkv hkv1), alookup, if_pos rfl]

/-- **C3.** Modelled from the spec: `save_current` on a dotted terminal path is a
pure frame extension — it succeeds and returns the respliced circuit with the
zero-valued ammeter appended, `get_terminal_branch` on the result yields the
probe's branch, the flattened `branches` view grows by exactly that one new
branch, and solving is voltage-preserving in both directions: every solution of
the probed MNA system restricts to a solution of the unprobed system with the
same voltage at every original node, and every solution of the unprobed system
extends to one of the probed system with the same voltage at every original
node (the inserted source has value 0, so it behaves as an ideal ammeter). -/
theorem save_current_frame {K : Type} [Field K] (env : String → K) (s : K)
    (c : SubCircuit) (iname t : String) (e e' : Element) (n : Node)
    (pre post : List (String × Element))
    (hterm : elemTermNode e t = some n)
    (hreb : rebindTerm e t (probeFresh iname t) = some e')
    (hc : ProbeCtx c iname t e e' n pre post) :
    saveCurrent c [iname, t] = some (probeCircuit c iname t e' n)
    ∧ getTerminalBranch (probeCircuit c iname t e' n) [iname, t]
        = some (Branch.mk n (probeFresh iname t))
    ∧ subBranchList (probeCircuit c iname t e' n)
        = subBranchList c ++ [Branch.mk n (probeFresh iname t)]
    ∧ (∀ x' : ℕ → K, mnaHolds (probeCircuit c iname t e' n) env s x' →
        ∃ x : ℕ → K, mnaHolds c env s x ∧ ∀ m ∈ subNodeList c,
          nodeVolt c x m = nodeVolt (probeCircuit c iname t e' n) x' m)
    ∧ (∀ x : ℕ → K, mnaHolds c env s x →
        ∃ x' : ℕ → K, mnaHolds (probeCircuit c iname t e' n) env s x' ∧
          ∀ m ∈ subNodeList c,
            nodeVolt c x m = nodeVolt (probeCircuit c iname t e' n) x' m) := by
  refine ⟨saveCurrent_eq_probeCircuit c iname t e e' n (probe_findElem_orig hc) hterm hreb,
    probe_gtb hc, probe_branches hc, ?_, ?_⟩
  · intro x' hx'
    rw [mnaHolds_iff_kclHolds _ env s x' (probe_nodup hc)] at hx'
    have htb := probe_kcl_transfer_back hc env s
      (nodeVolt (probeCircuit c iname t e' n) x')
      (branchCur (probeCircuit c iname t e' n) x') hx'.1 hx'.2
    have hass := kclHolds_of_assignment c env s
      (nodeVolt (probeCircuit c iname t e' n) x')
      (branchCur (probeCircuit c iname t e' n) x') hc.hnd
      (by simp [nodeVolt]) htb.1 htb.2
    refine ⟨xOf c (nodeVolt (probeCircuit c iname t e' n) x')
      (branchCur (probeCircuit c iname t e' n) x'), ?_, hass.2⟩
    rw [mnaHolds_iff_kclHolds c env s _ hc.hnd]
    exact hass.1
  · intro x hx
    rw [mnaHolds_iff_kclHolds c env s x hc.hnd] at hx
    have hfwd := probe_kcl_transfer_fwd hc env s (nodeVolt c x) (branchCur c x)
      hx.1 hx.2
      (fun m2 => if m2 = probeFresh iname t then nodeVolt c x n else nodeVolt c x m2)
      (fun b => if b = Branch.mk n (probeFresh iname t)
        then kclNode env s (nodeVolt c x) (branchCur c x) (walkFlat [(iname, e)]) n
        else branchCur c x b)
      (fun _ => rfl) (fun _ => rfl)
    have hass := kclHolds_of_assignment (probeCircuit c iname t e' n) env s
      (fun m2 => if m2 = probeFresh iname t then nodeVolt c x n else nodeVolt c x m2)
      (fun b => if b = Branch.mk n (probeFresh iname t)
        then kclNode env s (nodeVolt c x) (branchCur c x) (walkFlat [(iname, e)]) n
        else branchCur c x b)
      (probe_nodup hc)
      (by
        show (if gnd = probeFresh iname t
          then nodeVolt c x n else nodeVolt c x gnd) = (0 : K)
        rw [if_neg (fun hh : gnd = probeFresh iname t =>
          probe_fresh_ne_gnd iname t hh.symm)]
        simp [nodeVolt])
      hfwd.1 hfwd.2
    refine ⟨xOf (probeCircuit c iname t e' n)
      (fun m2 => if m2 = probeFresh iname t then nodeVolt c x n else nodeVolt c x m2)
      (fun b => if b = Branch.mk n (probeFresh iname t)
        then kclNode env s (nodeVolt c x) (branchCur c x) (walkFlat [(iname, e)]) n
        else branchCur c x b), ?_, ?_⟩
    · rw [mnaHolds_iff_kclHolds _ env s _ (probe_nodup hc)]
      exact hass.1
    · intro m hm
      rw [hass.2 m (probe_nodes_sup hc m hm)]
      exact (if_neg (fun hh : m = probeFresh iname t => hc.hfreshN (hh ▸ hm))).symm

/-- Witness: the probe frame theorem instantiated on the concrete current
divider at `I1.plus`, with every hypothesis discharged by computation. -/
theorem save_current_frame_witness :
    saveCurrent currentDivider ["I1", "plus"] = some probedDivider
    ∧ getTerminalBranch probedDivider ["I1", "plus"]
        = some (Branch.mk (Node.mk "n2") (Node.mk "I1.plus_probe"))
    ∧ subBranchList probedDivider
        = subBranchList currentDivider
            ++ [Branch.mk (Node.mk "n2") (Node.mk "I1.plus_probe")] := by
  have hW : walkFlat [("I1", Element.Sub currentDividerSub)]
      = [Element.R (Node.mk "n2") gnd (SymExpr.sym "R3"),
         Element.IS (Node.mk "n2") gnd (SymExpr.const 1)] := rfl
  have h := save_current_frame (K := ℚ) (dividerEnv 1 1 1) 1 currentDivider "I1" "plus"
    (Element.Sub currentDividerSub)
    (Element.Sub (SubCircuit.mk ["plus", "minus"] [Node.mk "I1.plus_probe", gnd]
      [("R3", Element.R (Node.mk "I1.plus_probe") gnd (SymExpr.sym "R3")),
       ("I2", Element.IS (Node.mk "I1.plus_probe") gnd (SymExpr.const 1))]))
    (Node.mk "n2")
    [("IS", Element.IS gnd (Node.mk "n1") (SymExpr.const 2)),
     ("R1", Element.R (Node.mk "n1") (Node.mk "n2") (SymExpr.sym "R1"))]
    [("C2", Element.C (Node.mk "n2") gnd (SymExpr.sym "C2"))]
    rfl rfl
    ⟨rfl, by decide, by decide, rfl, fun p q v hh => Element.noConfusion hh,
     by decide, by decide, by decide, by decide, rfl, rfl,
     by
      intro p q v hh
      rw [hW] at hh
      rcases List.mem_cons.mp hh with h1 | h1
      · exact Element.noConfusion h1
      rcases List.mem_cons.mp h1 with h2 | h2
      · exact Element.noConfusion h2
      · exact absurd h2 (List.not_mem_nil _)⟩
  exact ⟨h.1, h.2.1, h.2.2.1⟩
